import Mathlib

/-!
Verification of the `kvs` key-value store (`src/lib.rs`).

The store is a persistent log-structured key-value store: a directory of
append-only segment files (one per generation), an in-memory index mapping
each key to the `(generation, offset)` of its latest `Set` record, and an
inline compactor.  This file gives a shallow embedding of `src/lib.rs`:

* Rust `HashMap`s become association lists (`alookup`/`ainsert`/`aerase`),
  with `insert` replacing any previous binding and `remove` filtering it out;
  iteration order of the model list stands in for the map's arbitrary but
  fixed iteration order.
* File contents are `List Char`; offsets and cursors count code points where
  the Rust code counts bytes.  The code manipulates offsets only through
  "length of what was appended" and "seek back to a recorded offset", both of
  which commute with the monotone code-point/byte correspondence, so every
  property proved here transfers verbatim to the byte-level program.
* `serde_json` serialization of `KvsCommand` is embedded concretely
  (`encodeCmd`): the externally tagged enum encoding with `serde_json`'s
  string escaping.  Deserialization (`decodeCmd`) embeds `serde_json::from_str`
  on the record grammar the store emits (compact encoding, optional trailing
  whitespace as `from_str` allows); escape sequences are decoded exactly as
  `serde_json` does for the escapes the encoder can produce.
* I/O is modelled as infallible (the disk is a `List (Nat × List Char)` from
  generation to segment content); `panic!` is a distinguished result.
-/

namespace Kvs

/-- Error kinds of `KvsError` (`src/lib.rs` lines 12-19).  The payloads of
`IoError` and `SerdeJsonError` are dropped: only the kind matters to the
claims. -/
inductive KvsError where
  | Unexpected
  | KeyNotFound
  | InvalidPath
  | IoError
  | SerdeJsonError
deriving DecidableEq, Repr

/-- The two record shapes of `KvsCommand` (`src/lib.rs` lines 57-61). -/
inductive KvsCommand where
  | Set (key value : String)
  | Remove (key : String)
deriving DecidableEq, Repr

/-- An index entry (`IndexMeta`, `src/lib.rs` lines 47-51): generation and
offset-before-record of the latest `Set` for a key. -/
structure IndexMeta where
  gen : Nat
  pos : Nat
deriving DecidableEq, Repr

/-! ### Association lists modelling `HashMap` -/

/-- `HashMap::get`: first binding of `key`. -/
def alookup {α β : Type} [DecidableEq α] : List (α × β) → α → Option β
  | [], _ => none
  | (k, v) :: rest, key => if k = key then some v else alookup rest key

/-- `HashMap::remove`: drop the binding of `key`. -/
def aerase {α β : Type} [DecidableEq α] : List (α × β) → α → List (α × β)
  | [], _ => []
  | (k, v) :: rest, key => if k = key then aerase rest key else (k, v) :: aerase rest key

/-- `HashMap::insert`: replace any previous binding of `key` with `v`. -/
def ainsert {α β : Type} [DecidableEq α] (l : List (α × β)) (key : α) (v : β) : List (α × β) :=
  (key, v) :: aerase l key

theorem alookup_aerase {α β : Type} [DecidableEq α] (l : List (α × β)) (key k : α) :
    alookup (aerase l key) k = if key = k then none else alookup l k := by
  induction l with
  | nil => simp [aerase, alookup]
  | cons p rest ih =>
    rcases p with ⟨a, b⟩
    by_cases hp : a = key
    · subst hp
      by_cases hk : a = k
      · subst hk; simp [aerase, alookup, ih]
      · simp [aerase, alookup, hk, ih]
    · by_cases hk : a = k
      · have hkk : ¬key = k := fun h => hp (hk.trans h.symm)
        subst hk
        simp [aerase, alookup, hp, hkk]
      · simp [aerase, alookup, hp, hk, ih]

theorem alookup_ainsert {α β : Type} [DecidableEq α] (l : List (α × β)) (key k : α) (v : β) :
    alookup (ainsert l key v) k = if key = k then some v else alookup l k := by
  simp only [ainsert, alookup]
  by_cases h : key = k
  · simp [h]
  · simp [h, alookup_aerase, if_neg h]

theorem alookup_ainsert_self {α β : Type} [DecidableEq α] (l : List (α × β)) (key : α) (v : β) :
    alookup (ainsert l key v) key = some v := by
  simp [alookup_ainsert]

/-- Keys of an association list. -/
def akeys {α β : Type} (l : List (α × β)) : List α := l.map Prod.fst

theorem aerase_sublist {α β : Type} [DecidableEq α] (l : List (α × β)) (key : α) :
    (aerase l key).Sublist l := by
  induction l with
  | nil => simp [aerase]
  | cons p rest ih =>
    rcases p with ⟨a, b⟩
    simp only [aerase]
    split
    · exact ih.cons _
    · exact ih.cons₂ _

theorem akeys_aerase_sublist {α β : Type} [DecidableEq α] (l : List (α × β)) (key : α) :
    (akeys (aerase l key)).Sublist (akeys l) :=
  List.Sublist.map Prod.fst (aerase_sublist l key)

theorem akeys_ainsert_nodup {α β : Type} [DecidableEq α] (l : List (α × β)) (key : α) (v : β)
    (h : (akeys l).Nodup) : (akeys (ainsert l key v)).Nodup := by
  simp only [ainsert, akeys, List.map_cons, List.nodup_cons]
  constructor
  · intro hmem
    have : ∀ (l : List (α × β)), key ∉ akeys (aerase l key) := by
      intro l
      induction l with
      | nil => simp [aerase, akeys]
      | cons p rest ih =>
        rcases p with ⟨a, b⟩
        simp only [aerase]
        split
        · exact ih
        · next hne => simpa [akeys, Ne.symm hne] using ih
    exact this l hmem
  · exact ((akeys_aerase_sublist l key).nodup (by simpa [akeys] using h))

theorem akeys_aerase_nodup {α β : Type} [DecidableEq α] (l : List (α × β)) (key : α)
    (h : (akeys l).Nodup) : (akeys (aerase l key)).Nodup :=
  (akeys_aerase_sublist l key).nodup h

theorem alookup_isSome_iff_mem_akeys {α β : Type} [DecidableEq α] (l : List (α × β)) (k : α) :
    (alookup l k).isSome ↔ k ∈ akeys l := by
  induction l with
  | nil => simp [alookup, akeys]
  | cons p rest ih =>
    rcases p with ⟨a, b⟩
    by_cases h : a = k
    · simp [alookup, h, akeys]
    · simp [alookup, h, akeys, ih, Ne.symm h]

/-! ### Lines: `BufRead::read_line` -/

/-- The longest prefix up to and including the first newline (the whole list
if it has no newline): what one `read_line` call returns. -/
def takeLine : List Char → List Char
  | [] => []
  | c :: cs => if c = '\n' then [c] else c :: takeLine cs

/-- A `read_line` after seeking to byte offset `pos`. -/
def readLine (content : List Char) (pos : Nat) : List Char :=
  takeLine (content.drop pos)

theorem takeLine_append_newline {l : List Char} (h : '\n' ∉ l) (rest : List Char) :
    takeLine (l ++ '\n' :: rest) = l ++ ['\n'] := by
  induction l with
  | nil => simp [takeLine]
  | cons c cs ih =>
    simp only [List.mem_cons, not_or] at h
    have hc : ¬c = '\n' := fun hh => h.1 hh.symm
    simp [takeLine, hc, ih h.2]

theorem takeLine_length_pos (c : Char) (cs : List Char) :
    1 ≤ (takeLine (c :: cs)).length := by
  simp only [takeLine]
  split <;> simp

theorem takeLine_append_of_ends_newline {l : List Char} (h : ∃ l', l = l' ++ ['\n'] ∧ '\n' ∉ l')
    (rest : List Char) : takeLine (l ++ rest) = takeLine l := by
  obtain ⟨l', rfl, hnl⟩ := h
  rw [List.append_assoc]
  rw [show l' ++ (['\n'] ++ rest) = l' ++ '\n' :: rest by simp]
  rw [takeLine_append_newline hnl, takeLine_append_newline hnl []]

/-! ### `serde_json` serialization of `KvsCommand`

`serde_json::to_string(&KvsCommand::Set(k, v))` produces
`\x7b"Set":["<esc k>","<esc v>"]\x7d` and
`serde_json::to_string(&KvsCommand::Remove(k))` produces
`\x7b"Remove":"<esc k>"\x7d`, where `<esc s>` escapes `"` and `\`, writes
control characters below 0x20 as `\b \t \n \f \r` or `\u00XX` (lowercase
hex), and passes every other character through. -/

/-- Hex digit characters as `serde_json` writes them (lowercase). -/
def hexDigitChar (n : Nat) : Char :=
  if n < 10 then Char.ofNat (48 + n) else Char.ofNat (87 + n)

/-- `serde_json`'s escaping of one character inside a JSON string. -/
def escChar (c : Char) : List Char :=
  if c = '"' then ['\\', '"']
  else if c = '\\' then ['\\', '\\']
  else if c.toNat < 32 then
    if c.toNat = 8 then ['\\', 'b']
    else if c.toNat = 9 then ['\\', 't']
    else if c.toNat = 10 then ['\\', 'n']
    else if c.toNat = 12 then ['\\', 'f']
    else if c.toNat = 13 then ['\\', 'r']
    else ['\\', 'u', '0', '0', hexDigitChar (c.toNat / 16), hexDigitChar (c.toNat % 16)]
  else [c]

/-- Escaped body of a JSON string. -/
def escList : List Char → List Char
  | [] => []
  | c :: cs => escChar c ++ escList cs

/-- A serialized JSON string, quotes included. -/
def encodeString (s : String) : List Char :=
  '"' :: escList s.data ++ ['"']

/-- Left brace, written via its code point to keep it out of string literals. -/
def lbrace : Char := Char.ofNat 123

/-- Right brace, written via its code point to keep it out of string literals. -/
def rbrace : Char := Char.ofNat 125

/-- The opening tokens of a serialized `Set` record. -/
def setHeader : List Char := [lbrace, '"', 'S', 'e', 't', '"', ':', '[']

/-- The opening tokens of a serialized `Remove` record. -/
def removeHeader : List Char := [lbrace, '"', 'R', 'e', 'm', 'o', 'v', 'e', '"', ':']

/-- `serde_json::to_string` on a `KvsCommand` (externally tagged enum). -/
def encodeCmd : KvsCommand → List Char
  | .Set k v => setHeader ++ encodeString k ++ [','] ++ encodeString v ++ [']'] ++ [rbrace]
  | .Remove k => removeHeader ++ encodeString k ++ [rbrace]

theorem hexDigitChar_ne_newline {n : Nat} (h : n < 16) : hexDigitChar n ≠ '\n' := by
  interval_cases n <;> decide

theorem newline_not_mem_escChar (c : Char) : '\n' ∉ escChar c := by
  intro hmem
  unfold escChar at hmem
  split at hmem
  · revert hmem; decide
  · split at hmem
    · revert hmem; decide
    · split at hmem
      · split at hmem
        · revert hmem; decide
        · split at hmem
          · revert hmem; decide
          · split at hmem
            · revert hmem; decide
            · split at hmem
              · revert hmem; decide
              · split at hmem
                · revert hmem; decide
                · rename_i hlt _ _ _ _ _
                  simp only [List.mem_cons, List.not_mem_nil, or_false] at hmem
                  rcases hmem with h | h | h | h | h | h
                  · exact absurd h (by decide)
                  · exact absurd h (by decide)
                  · exact absurd h (by decide)
                  · exact absurd h (by decide)
                  · exact hexDigitChar_ne_newline (by omega) h.symm
                  · exact hexDigitChar_ne_newline (Nat.mod_lt _ (by norm_num)) h.symm
      · rename_i hge
        simp only [List.mem_singleton] at hmem
        apply hge
        rw [← hmem]
        decide

theorem newline_not_mem_escList (cs : List Char) : '\n' ∉ escList cs := by
  induction cs with
  | nil => simp [escList]
  | cons c cs ih =>
    simp only [escList, List.mem_append, not_or]
    exact ⟨newline_not_mem_escChar c, ih⟩

theorem newline_not_mem_encodeString (s : String) : '\n' ∉ encodeString s := by
  intro hmem
  simp only [encodeString, List.mem_cons, List.mem_append, List.mem_singleton] at hmem
  rcases hmem with (h | h) | h
  · exact absurd h (by decide)
  · exact newline_not_mem_escList s.data h
  · exact absurd h (by decide)

theorem newline_not_mem_encodeCmd (c : KvsCommand) : '\n' ∉ encodeCmd c := by
  cases c with
  | Set k v =>
    intro hmem
    simp only [encodeCmd, List.mem_append] at hmem
    rcases hmem with ((((h | h) | h) | h) | h) | h
    · revert h; decide
    · exact newline_not_mem_encodeString k h
    · revert h; decide
    · exact newline_not_mem_encodeString v h
    · revert h; decide
    · revert h; decide
  | Remove k =>
    intro hmem
    simp only [encodeCmd, List.mem_append] at hmem
    rcases hmem with (h | h) | h
    · revert h; decide
    · exact newline_not_mem_encodeString k h
    · revert h; decide

/-! ### `serde_json` deserialization

`serde_json::from_str::<KvsCommand>` on the record grammar the store emits:
the compact encoding produced by `encodeCmd`, with trailing whitespace
tolerated (as `from_str` does) because `read_line` hands the parser a
newline-terminated line.  Surrogate-pair `\uXXXX` escapes, which the encoder
never produces, are not modelled. -/

/-- Value of one hex digit (`serde_json` accepts both cases). -/
def hexVal (c : Char) : Option Nat :=
  if '0' ≤ c ∧ c ≤ '9' then some (c.toNat - 48)
  else if 'a' ≤ c ∧ c ≤ 'f' then some (c.toNat - 87)
  else if 'A' ≤ c ∧ c ≤ 'F' then some (c.toNat - 55)
  else none

/-- Simple escape codes (`\" \\ \/ \b \t \n \f \r`). -/
def simpleEsc (e : Char) : Option Char :=
  if e = '"' then some '"'
  else if e = '\\' then some '\\'
  else if e = '/' then some '/'
  else if e = 'b' then some (Char.ofNat 8)
  else if e = 't' then some '\t'
  else if e = 'n' then some '\n'
  else if e = 'f' then some (Char.ofNat 12)
  else if e = 'r' then some (Char.ofNat 13)
  else none

/-- Parse the body of a JSON string after its opening quote: returns the
decoded characters and the input remaining after the closing quote. -/
def parseStrBody : List Char → Option (List Char × List Char)
  | [] => none
  | c :: rest =>
    if c = '"' then some ([], rest)
    else if c = '\\' then
      match rest with
      | 'u' :: h1 :: h2 :: h3 :: h4 :: rest4 =>
        match hexVal h1, hexVal h2, hexVal h3, hexVal h4 with
        | some a, some b, some x, some y =>
          let n := ((a * 16 + b) * 16 + x) * 16 + y
          if n < 55296 then
            match parseStrBody rest4 with
            | some (s, r) => some (Char.ofNat n :: s, r)
            | none => none
          else none
        | _, _, _, _ => none
      | e :: rest2 =>
        if e = 'u' then none
        else
          match simpleEsc e with
          | some d =>
            match parseStrBody rest2 with
            | some (s, r) => some (d :: s, r)
            | none => none
          | none => none
      | [] => none
    else if c.toNat < 32 then none
    else
      match parseStrBody rest with
      | some (s, r) => some (c :: s, r)
      | none => none

/-- JSON whitespace, which `from_str` ignores around the value. -/
def isJsonWs (c : Char) : Bool :=
  c = ' ' || c = '\t' || c = '\n' || c = Char.ofNat 13

/-- Drop trailing whitespace. -/
def stripTrailingWs (l : List Char) : List Char :=
  (l.reverse.dropWhile isJsonWs).reverse

/-- Match and consume an expected token sequence. -/
def dropHeader : List Char → List Char → Option (List Char)
  | [], l => some l
  | _ :: _, [] => none
  | p :: ps, c :: cs => if p = c then dropHeader ps cs else none

/-- `serde_json::from_str::<KvsCommand>` on one log line. -/
def decodeCmd (line : List Char) : Option KvsCommand :=
  let l := stripTrailingWs line
  match dropHeader setHeader l with
  | some r =>
    match r with
    | '"' :: r1 =>
      match parseStrBody r1 with
      | some (k, r2) =>
        match r2 with
        | ',' :: '"' :: r3 =>
          match parseStrBody r3 with
          | some (v, r4) =>
            if r4 = [']', rbrace] then some (.Set (String.mk k) (String.mk v)) else none
          | none => none
        | _ => none
      | none => none
    | _ => none
  | none =>
    match dropHeader removeHeader l with
    | some ('"' :: r1) =>
      match parseStrBody r1 with
      | some (k, r2) => if r2 = [rbrace] then some (.Remove (String.mk k)) else none
      | none => none
    | _ => none

example : decodeCmd (encodeCmd (.Set "a" "b") ++ ['\n']) = some (.Set "a" "b") := by rfl

example : decodeCmd (encodeCmd (.Set "a\nx" "b\"y") ++ ['\n']) = some (.Set "a\nx" "b\"y") := by
  rfl

example : decodeCmd (encodeCmd (.Remove "k\\z") ++ ['\n']) = some (.Remove "k\\z") := by rfl

/-! ### Decode inverts encode -/

theorem hexVal_hexDigitChar {n : Nat} (h : n < 16) : hexVal (hexDigitChar n) = some n := by
  interval_cases n <;> decide

theorem parseStrBody_escList (cs : List Char) (rest : List Char) :
    parseStrBody (escList cs ++ '"' :: rest) = some (cs, rest) := by
  induction cs with
  | nil =>
    rw [show escList [] ++ '"' :: rest = '"' :: rest by simp [escList]]
    rw [parseStrBody.eq_def]
    simp
  | cons c cs ih =>
    have hassoc : escList (c :: cs) ++ '"' :: rest = escChar c ++ (escList cs ++ '"' :: rest) := by
      simp [escList]
    rw [hassoc]
    by_cases h1 : c = '"'
    · subst h1
      have step : parseStrBody (escChar '"' ++ (escList cs ++ '"' :: rest)) =
          (match parseStrBody (escList cs ++ '"' :: rest) with
           | some (s, r) => some ('"' :: s, r) | none => none) := rfl
      rw [step, ih]
    · by_cases h2 : c = '\\'
      · subst h2
        have step : parseStrBody (escChar '\\' ++ (escList cs ++ '"' :: rest)) =
            (match parseStrBody (escList cs ++ '"' :: rest) with
             | some (s, r) => some ('\\' :: s, r) | none => none) := rfl
        rw [step, ih]
      · by_cases h3 : c.toNat < 32
        · have hofn : Char.ofNat c.toNat = c := Char.ofNat_toNat c
          by_cases h8 : c.toNat = 8
          · have hc : c = Char.ofNat 8 := by rw [← h8, hofn]
            subst hc
            have step : parseStrBody (escChar (Char.ofNat 8) ++ (escList cs ++ '"' :: rest)) =
                (match parseStrBody (escList cs ++ '"' :: rest) with
                 | some (s, r) => some (Char.ofNat 8 :: s, r) | none => none) := rfl
            rw [step, ih]
          · by_cases h9 : c.toNat = 9
            · have hc : c = Char.ofNat 9 := by rw [← h9, hofn]
              subst hc
              have step : parseStrBody (escChar (Char.ofNat 9) ++ (escList cs ++ '"' :: rest)) =
                  (match parseStrBody (escList cs ++ '"' :: rest) with
                   | some (s, r) => some (Char.ofNat 9 :: s, r) | none => none) := rfl
              rw [step, ih]
            · by_cases h10 : c.toNat = 10
              · have hc : c = Char.ofNat 10 := by rw [← h10, hofn]
                subst hc
                have step :
                    parseStrBody (escChar (Char.ofNat 10) ++ (escList cs ++ '"' :: rest)) =
                    (match parseStrBody (escList cs ++ '"' :: rest) with
                     | some (s, r) => some (Char.ofNat 10 :: s, r) | none => none) := rfl
                rw [step, ih]
              · by_cases h12 : c.toNat = 12
                · have hc : c = Char.ofNat 12 := by rw [← h12, hofn]
                  subst hc
                  have step :
                      parseStrBody (escChar (Char.ofNat 12) ++ (escList cs ++ '"' :: rest)) =
                      (match parseStrBody (escList cs ++ '"' :: rest) with
                       | some (s, r) => some (Char.ofNat 12 :: s, r) | none => none) := rfl
                  rw [step, ih]
                · by_cases h13 : c.toNat = 13
                  · have hc : c = Char.ofNat 13 := by rw [← h13, hofn]
                    subst hc
                    have step :
                        parseStrBody (escChar (Char.ofNat 13) ++ (escList cs ++ '"' :: rest)) =
                        (match parseStrBody (escList cs ++ '"' :: rest) with
                         | some (s, r) => some (Char.ofNat 13 :: s, r) | none => none) := rfl
                    rw [step, ih]
                  · -- the \u00XX escape
                    have hdlt : c.toNat / 16 < 16 := by omega
                    have hmlt : c.toNat % 16 < 16 := Nat.mod_lt _ (by norm_num)
                    have hunfold : escChar c ++ (escList cs ++ '"' :: rest) =
                        '\\' :: 'u' :: '0' :: '0' :: hexDigitChar (c.toNat / 16) ::
                          hexDigitChar (c.toNat % 16) :: (escList cs ++ '"' :: rest) := by
                      simp only [escChar, if_pos h3, if_neg h1, if_neg h2, if_neg h8, if_neg h9,
                        if_neg h10, if_neg h12, if_neg h13, List.cons_append, List.nil_append]
                    rw [hunfold, parseStrBody.eq_def]
                    simp only [hexVal_hexDigitChar hdlt, hexVal_hexDigitChar hmlt,
                      show hexVal '0' = some 0 from rfl]
                    norm_num
                    rw [if_pos (by omega : c.toNat / 16 * 16 + c.toNat % 16 < 55296)]
                    rw [ih]
                    have hrecompose : c.toNat / 16 * 16 + c.toNat % 16 = c.toNat := by omega
                    rw [hrecompose, hofn]
                    simp
        · rw [show escChar c ++ (escList cs ++ '"' :: rest) =
              c :: (escList cs ++ '"' :: rest) by simp [escChar, h1, h2, h3]]
          rw [parseStrBody.eq_def]
          simp only [if_neg h1, if_neg h2, if_neg h3, ih]

theorem dropHeader_append (p l : List Char) : dropHeader p (p ++ l) = some l := by
  induction p with
  | nil => simp [dropHeader]
  | cons c cs ih => simp [dropHeader, ih]

theorem stripTrailingWs_append_newline (l : List Char) :
    stripTrailingWs (l ++ ['\n']) = stripTrailingWs l := by
  simp [stripTrailingWs, List.dropWhile, isJsonWs]

theorem stripTrailingWs_of_last_not_ws (l : List Char) (c : Char) (h : isJsonWs c = false) :
    stripTrailingWs (l ++ [c]) = l ++ [c] := by
  simp [stripTrailingWs, List.dropWhile, h]

theorem encodeCmd_ends_rbrace (c : KvsCommand) : ∃ l, encodeCmd c = l ++ [rbrace] := by
  cases c with
  | Set k v =>
    exact ⟨setHeader ++ encodeString k ++ [','] ++ encodeString v ++ [']'], by simp [encodeCmd]⟩
  | Remove k => exact ⟨removeHeader ++ encodeString k, by simp [encodeCmd]⟩

theorem stripTrailingWs_encodeCmd_newline (c : KvsCommand) :
    stripTrailingWs (encodeCmd c ++ ['\n']) = encodeCmd c := by
  obtain ⟨l, hl⟩ := encodeCmd_ends_rbrace c
  rw [stripTrailingWs_append_newline, hl, stripTrailingWs_of_last_not_ws]
  decide

/-- `serde_json::from_str` inverts `serde_json::to_string` on a
newline-terminated log line. -/
theorem decodeCmd_encodeCmd (c : KvsCommand) :
    decodeCmd (encodeCmd c ++ ['\n']) = some c := by
  cases c with
  | Set k v =>
    simp only [decodeCmd, stripTrailingWs_encodeCmd_newline]
    have h1 : encodeCmd (.Set k v) =
        setHeader ++ ('"' :: (escList k.data ++
          '"' :: (',' :: '"' :: (escList v.data ++ '"' :: [']', rbrace])))) := by
      simp [encodeCmd, encodeString]
    rw [h1, dropHeader_append]
    simp only [parseStrBody_escList]
    rfl
  | Remove k =>
    simp only [decodeCmd, stripTrailingWs_encodeCmd_newline]
    have h1 : encodeCmd (.Remove k) =
        removeHeader ++ ('"' :: (escList k.data ++ '"' :: [rbrace])) := by
      simp [encodeCmd, encodeString]
    have h2 : dropHeader setHeader (encodeCmd (.Remove k)) = none := by
      rw [h1]
      simp [setHeader, removeHeader, dropHeader, lbrace]
    rw [h2, h1, dropHeader_append]
    simp only [parseStrBody_escList]
    rfl

/-! ### The store state

`KvStore` (`src/lib.rs` lines 63-71) against one storage directory:

* `index`: the in-memory `HashMap<String, IndexMeta>`;
* `readers`: the `HashMap<Gen, BufReader<File>>` of cached read handles,
  modelled as the handle's generation together with its current seek
  position (the only mutable state of a `BufReader` that the code uses —
  every read seeks first, and handle contents are read through `files`);
* `files`: the storage directory, generation to segment content (the `path`
  field is implicit: there is a single directory);
* `gen`: the active write generation; `cursor`: bytes written to it.
-/
structure KvStore where
  index : List (String × IndexMeta)
  readers : List (Nat × Nat)
  files : List (Nat × List Char)
  gen : Nat
  cursor : Nat
deriving DecidableEq, Repr

/-- `COMPACTION_THRESHOLD` (`src/lib.rs` line 10). -/
def COMPACTION_THRESHOLD : Nat := 1024 * 1024

/-- Result of one store operation: Rust's `Result` with the post state (the
`&mut self` the caller keeps on `Ok` and on `Err`), plus `panic` for
`panic!`, which never returns a state. -/
inductive OpResult (α : Type) where
  | ok (a : α) (st : KvStore)
  | err (e : KvsError) (st : KvStore)
  | panic
deriving DecidableEq, Repr

/-- The result a caller observes, disregarding the threaded state. -/
def OpResult.val {α : Type} : OpResult α → Option α
  | .ok a _ => some a
  | _ => none

/-- Content of the segment file of generation `g`. -/
def fileContent (st : KvStore) (g : Nat) : List Char :=
  (alookup st.files g).getD []

/-- `KvStore::get` (`src/lib.rs` lines 102-118): index lookup; on a hit,
seek the owning generation's read handle to the stored offset, read one
line, deserialize; a missing handle or a non-`Set` record hits `panic!()`
(lines 114 and 111). -/
def get (st : KvStore) (key : String) : OpResult (Option String) :=
  match alookup st.index key with
  | none => .ok none st
  | some m =>
    match alookup st.readers m.gen with
    | none => .panic
    | some _ =>
      let line := readLine (fileContent st m.gen) m.pos
      let st' := { st with readers := ainsert st.readers m.gen (m.pos + line.length) }
      match decodeCmd line with
      | none => .err .SerdeJsonError st'
      | some (.Set _ v) => .ok (some v) st'
      | some (.Remove _) => .panic

/-- `KvStore::log_cmd` (`src/lib.rs` lines 153-161): append the serialized
command plus a newline to the active segment, flush, and advance the
cursor by the written length. -/
def log_cmd (st : KvStore) (cmd : List Char) : KvStore :=
  let bytes := cmd ++ ['\n']
  { st with
    files := ainsert st.files st.gen (fileContent st st.gen ++ bytes)
    cursor := st.cursor + bytes.length }

/-- One round of the compaction loop (`src/lib.rs` lines 176-190): for each
index entry, read the record at its current location through the cached
handle (`panic!` at line 188 if the handle is missing), append the raw line
to the archive buffer, and repoint the entry at
`(compactGen, offset-in-archive)`.  Returns the rewritten entries, the
handles (with their moved positions), and the archive buffer; `none` is the
`panic!` of line 188 (the loop itself performs no fallible deserialization,
so it cannot fail any other way). -/
def compactLoop (files : List (Nat × List Char)) (compactGen : Nat) :
    List (String × IndexMeta) → List (Nat × Nat) → List Char → Nat →
    Option (List (String × IndexMeta) × List (Nat × Nat) × List Char)
  | [], readers, buf, _ => some ([], readers, buf)
  | (k, m) :: entries, readers, buf, cur =>
    match alookup readers m.gen with
    | none => none
    | some _ =>
      let line := readLine ((alookup files m.gen).getD []) m.pos
      let readers' := ainsert readers m.gen (m.pos + line.length)
      match compactLoop files compactGen entries readers' (buf ++ line) (cur + line.length) with
      | some (idx, rs, b) => some ((k, ⟨compactGen, cur⟩) :: idx, rs, b)
      | none => none

/-- `KvStore::compact` (`src/lib.rs` lines 163-202): allocate the new active
generation `gen + 2` (empty file, fresh handle, cursor 0) and the archive
generation `gen + 1`; rewrite every index entry into the archive; flush it;
then delete every on-disk segment (closing its handle) whose generation is
below the archive's. -/
def compact (st : KvStore) : OpResult Unit :=
  let gen' := st.gen + 2
  let compactGen := gen' - 1
  let files1 := ainsert st.files gen' []
  let readers1 := ainsert st.readers gen' 0
  let files2 := ainsert files1 compactGen []
  let readers2 := ainsert readers1 compactGen 0
  match compactLoop files2 compactGen st.index readers2 [] 0 with
  | none => .panic
  | some (idx, rs, buf) =>
    let files3 := ainsert files2 compactGen buf
    let diskGens := akeys files3
    let readers4 := rs.filter (fun p => ¬(p.1 < compactGen ∧ p.1 ∈ diskGens))
    let files4 := files3.filter (fun p => ¬ p.1 < compactGen)
    .ok () { index := idx, readers := readers4, files := files4, gen := gen', cursor := 0 }

/-- `KvStore::set` (`src/lib.rs` lines 120-135): record the index entry at
`(active generation, cursor before the write)`, append the serialized `Set`,
insert the entry, and compact if the cursor crossed the threshold. -/
def set (st : KvStore) (key value : String) : OpResult Unit :=
  let idx_val : IndexMeta := ⟨st.gen, st.cursor⟩
  let st1 := log_cmd st (encodeCmd (.Set key value))
  let st2 := { st1 with index := ainsert st1.index key idx_val }
  if COMPACTION_THRESHOLD < st2.cursor then compact st2 else .ok () st2

/-- `KvStore::remove` (`src/lib.rs` lines 137-151): if the key is absent
from the index, fail with `KeyNotFound` without writing; otherwise append a
`Remove` record, drop the index entry, and compact past the threshold. -/
def remove (st : KvStore) (key : String) : OpResult Unit :=
  if (alookup st.index key).isSome then
    let st1 := log_cmd st (encodeCmd (.Remove key))
    let st2 := { st1 with index := aerase st1.index key }
    if COMPACTION_THRESHOLD < st2.cursor then compact st2 else .ok () st2
  else .err .KeyNotFound st

/-! ### Recovery: `index` and `KvStore::open` -/

/-- Effect of one replayed record on the index (`src/lib.rs` lines 247-254):
a `Set` inserts/overwrites the key's entry at `(g, offset-before-record)`, a
`Remove` deletes it. -/
def applyCmd (g pos : Nat) (idx : List (String × IndexMeta)) :
    KvsCommand → List (String × IndexMeta)
  | .Set k _ => ainsert idx k ⟨g, pos⟩
  | .Remove k => aerase idx k

/-- The replay loop of `index` (`src/lib.rs` lines 239-257) over one
segment's remaining content, fuelled to keep the recursion structural: with
fuel at least the content length (as `replayFile` supplies) the fuel never
runs out, since every read line is nonempty. -/
def replayGo (g : Nat) : Nat → List Char → Nat → List (String × IndexMeta) →
    Except KvsError (List (String × IndexMeta))
  | _, [], _, idx => .ok idx
  | 0, _ :: _, _, idx => .ok idx
  | fuel + 1, c :: rest, pos, idx =>
    match decodeCmd (takeLine (c :: rest)) with
    | none => .error .SerdeJsonError
    | some cmd =>
      replayGo g fuel ((c :: rest).drop (takeLine (c :: rest)).length)
        (pos + (takeLine (c :: rest)).length) (applyCmd g pos idx cmd)

/-- Replay one whole segment file into the index. -/
def replayFile (g : Nat) (content : List Char) (idx : List (String × IndexMeta)) :
    Except KvsError (List (String × IndexMeta)) :=
  replayGo g content.length content 0 idx

/-- `index` (`src/lib.rs` lines 232-261): replay the given generations in
the given order, each file front to back. -/
def buildIndex (files : List (Nat × List Char)) :
    List Nat → List (String × IndexMeta) → Except KvsError (List (String × IndexMeta))
  | [], idx => .ok idx
  | g :: gens, idx =>
    match replayFile g ((alookup files g).getD []) idx with
    | .error e => .error e
    | .ok idx' => buildIndex files gens idx'

/-- `readers` (`src/lib.rs` lines 217-225): a fresh handle (position 0) per
discovered generation. -/
def buildReaders (gens : List Nat) : List (Nat × Nat) :=
  gens.foldl (fun rs g => ainsert rs g 0) []

/-- Insert into an ascending list. -/
def insertSorted (g : Nat) : List Nat → List Nat
  | [] => [g]
  | h :: t => if g ≤ h then g :: h :: t else h :: insertSorted g t

/-- `Vec::sort` (ascending) as used on the generation list
(`src/lib.rs` line 85); on `Nat` any sort returns the same list. -/
def sortGens : List Nat → List Nat
  | [] => []
  | h :: t => insertSorted h (sortGens t)

/-- `KvStore::open` (`src/lib.rs` lines 74-100) after directory discovery:
given the discovered generations and their contents, build a fresh handle
per generation, sort, pick `max + 1` (or 0) as the new active generation,
create its empty segment and handle, and rebuild the index by replaying the
discovered generations in ascending order. -/
def openStore (files : List (Nat × List Char)) : Except KvsError KvStore :=
  let gens := akeys files
  let readers := buildReaders gens
  let sorted := sortGens gens
  let gen := match sorted.getLast? with
    | some last => last + 1
    | none => 0
  let files1 := ainsert files gen []
  let readers1 := ainsert readers gen 0
  match buildIndex files1 sorted [] with
  | .error e => .error e
  | .ok idx => .ok { index := idx, readers := readers1, files := files1, gen := gen, cursor := 0 }

/-- The store `open` returns on an empty directory. -/
def freshStore : KvStore :=
  { index := [], readers := [(0, 0)], files := [(0, [])], gen := 0, cursor := 0 }

theorem openStore_nil : openStore [] = .ok freshStore := rfl

/-! ### Operation sequences -/

/-- One public mutating operation. -/
inductive Op where
  | set (key value : String)
  | remove (key : String)
  | compact
deriving DecidableEq, Repr

def runOp (st : KvStore) : Op → OpResult Unit
  | .set k v => set st k v
  | .remove k => remove st k
  | .compact => compact st

/-- Run a sequence of operations.  An `Err` leaves the store usable (the
caller observes the error and may continue — in this code the only such
error is `KeyNotFound` from `remove`, which touches nothing); a `panic`
kills the run. -/
def runOps : KvStore → List Op → OpResult Unit
  | st, [] => .ok () st
  | st, op :: ops =>
    match runOp st op with
    | .ok _ st' => runOps st' ops
    | .err _ st' => runOps st' ops
    | .panic => .panic

/-- The reference semantics: the key-value mapping an operation sequence
should produce (`set` binds, `remove` unbinds, compaction is invisible). -/
def specApply (m : List (String × String)) : Op → List (String × String)
  | .set k v => ainsert m k v
  | .remove k => aerase m k
  | .compact => m

/-- Reference mapping of a whole operation sequence from the empty store. -/
def specRun (ops : List Op) : List (String × String) :=
  ops.foldl specApply []

/-! ### Association list and sorting lemmas -/

theorem alookup_eq_none_of_not_mem {α β : Type} [DecidableEq α] {l : List (α × β)} {k : α}
    (h : k ∉ akeys l) : alookup l k = none := by
  cases hl : alookup l k with
  | none => rfl
  | some v =>
    exact absurd ((alookup_isSome_iff_mem_akeys l k).1 (by simp [hl])) h

theorem aerase_eq_self_of_not_mem {α β : Type} [DecidableEq α] {l : List (α × β)} {key : α}
    (h : key ∉ akeys l) : aerase l key = l := by
  induction l with
  | nil => rfl
  | cons p rest ih =>
    rcases p with ⟨a, b⟩
    simp only [akeys, List.map_cons, List.mem_cons, not_or] at h
    simp only [aerase, if_neg (fun hh : a = key => h.1 hh.symm)]
    rw [ih (by simpa [akeys] using h.2)]

theorem mem_of_mem_aerase {α β : Type} [DecidableEq α] {l : List (α × β)} {key : α}
    {p : α × β} (h : p ∈ aerase l key) : p ∈ l :=
  (aerase_sublist l key).mem h

theorem alookup_of_mem_nodup {α β : Type} [DecidableEq α] {l : List (α × β)} {k : α} {v : β}
    (hnd : (akeys l).Nodup) (h : (k, v) ∈ l) : alookup l k = some v := by
  induction l with
  | nil => simp at h
  | cons p rest ih =>
    rcases p with ⟨a, b⟩
    simp only [akeys, List.map_cons, List.nodup_cons] at hnd
    rcases List.mem_cons.1 h with heq | hmem
    · injection heq with hk hv
      subst hk
      subst hv
      simp [alookup]
    · have hak : a ≠ k := by
        intro hh
        subst hh
        exact hnd.1 (by simpa [akeys] using List.mem_map_of_mem Prod.fst hmem)
      simp [alookup, hak, ih (by simpa [akeys] using hnd.2) hmem]

theorem alookup_filter_key {α β : Type} [DecidableEq α] (P : α → Bool) (l : List (α × β))
    (k : α) :
    alookup (l.filter (fun p => P p.1)) k = if P k then alookup l k else none := by
  induction l with
  | nil => simp [alookup]
  | cons p rest ih =>
    rcases p with ⟨a, b⟩
    by_cases hP : P a
    · rw [List.filter_cons_of_pos (by simpa using hP)]
      by_cases hak : a = k
      · subst hak
        simp [alookup, hP]
      · simp [alookup, hak, ih]
    · rw [List.filter_cons_of_neg (by simpa using hP)]
      by_cases hak : a = k
      · subst hak
        simp [alookup, hP, ih]
      · simp [alookup, hak, ih]

theorem alookup_map_value {α β γ : Type} [DecidableEq α] (f : β → γ) (l : List (α × β))
    (k : α) :
    alookup (l.map (fun p => (p.1, f p.2))) k = (alookup l k).map f := by
  induction l with
  | nil => simp [alookup]
  | cons p rest ih =>
    rcases p with ⟨a, b⟩
    by_cases hak : a = k
    · subst hak
      simp [alookup]
    · simp [alookup, hak, ih]

theorem akeys_map_value {α β γ : Type} (f : β → γ) (l : List (α × β)) :
    akeys (l.map (fun p => (p.1, f p.2))) = akeys l := by
  simp [akeys, List.map_map]

theorem aerase_map_value {α β γ : Type} [DecidableEq α] (f : β → γ) (l : List (α × β))
    (key : α) :
    aerase (l.map (fun p => (p.1, f p.2))) key = (aerase l key).map (fun p => (p.1, f p.2)) := by
  induction l with
  | nil => rfl
  | cons p rest ih =>
    rcases p with ⟨a, b⟩
    by_cases hak : a = key
    · simp [aerase, hak, ih]
    · simp [aerase, hak, ih]

theorem ainsert_map_value {α β γ : Type} [DecidableEq α] (f : β → γ) (l : List (α × β))
    (key : α) (v : β) :
    ainsert (l.map (fun p => (p.1, f p.2))) key (f v) =
      (ainsert l key v).map (fun p => (p.1, f p.2)) := by
  simp [ainsert, aerase_map_value]

theorem alookup_ainsert_isSome {α β : Type} [DecidableEq α] (l : List (α × β)) (key k : α)
    (v : β) :
    (alookup (ainsert l key v) k).isSome ↔ k = key ∨ (alookup l k).isSome := by
  rw [alookup_ainsert]
  by_cases h : key = k
  · subst h
    simp
  · rw [if_neg h]
    constructor
    · exact Or.inr
    · rintro (rfl | hs)
      · exact absurd rfl h
      · exact hs

theorem alookup_perm {α β : Type} [DecidableEq α] {l l' : List (α × β)}
    (hp : l.Perm l') (hnd : (akeys l).Nodup) (k : α) : alookup l k = alookup l' k := by
  induction hp with
  | nil => rfl
  | cons p t ih =>
    rcases p with ⟨a, b⟩
    by_cases hak : a = k
    · simp [alookup, hak]
    · simp only [akeys, List.map_cons, List.nodup_cons] at hnd
      simp [alookup, hak, ih (by simpa [akeys] using hnd.2)]
  | swap p q t =>
    rcases p with ⟨a, b⟩
    rcases q with ⟨c, d⟩
    simp only [akeys, List.map_cons, List.nodup_cons, List.mem_cons] at hnd
    by_cases hck : c = k
    · subst hck
      have hac : a ≠ c := fun h => hnd.1 (Or.inl h.symm)
      simp [alookup, hac]
    · by_cases hak : a = k
      · subst hak
        simp [alookup, hck]
      · simp [alookup, hak, hck]
  | trans h1 h2 ih1 ih2 =>
    rw [ih1 hnd, ih2 ((h1.map Prod.fst).nodup_iff.1 hnd)]

theorem insertSorted_perm (g : Nat) (l : List Nat) : (insertSorted g l).Perm (g :: l) := by
  induction l with
  | nil => rfl
  | cons h t ih =>
    simp only [insertSorted]
    split
    · rfl
    · exact ((ih.cons h).trans (List.Perm.swap g h t))

theorem sortGens_perm (l : List Nat) : (sortGens l).Perm l := by
  induction l with
  | nil => rfl
  | cons h t ih => exact (insertSorted_perm h (sortGens t)).trans (ih.cons h)

theorem insertSorted_sorted (g : Nat) (l : List Nat) (h : l.Sorted (· ≤ ·)) :
    (insertSorted g l).Sorted (· ≤ ·) := by
  induction l with
  | nil => simp [insertSorted]
  | cons a t ih =>
    simp only [insertSorted]
    rcases List.sorted_cons.1 h with ⟨ha, ht⟩
    split
    · next hga =>
      refine List.sorted_cons.2 ⟨?_, h⟩
      intro b hb
      rcases List.mem_cons.1 hb with hba | hbt
      · subst hba
        exact hga
      · exact le_trans hga (ha b hbt)
    · next hga =>
      refine List.sorted_cons.2 ⟨?_, ih ht⟩
      intro b hb
      rcases List.mem_cons.1 ((insertSorted_perm g t).mem_iff.1 hb) with hbg | hbt
      · subst hbg
        omega
      · exact ha b hbt

theorem sortGens_sorted (l : List Nat) : (sortGens l).Sorted (· ≤ ·) := by
  induction l with
  | nil => simp [sortGens]
  | cons h t ih => exact insertSorted_sorted h (sortGens t) ih

theorem sortGens_eq_of_perm {l l' : List Nat} (hp : l.Perm l') : sortGens l = sortGens l' :=
  List.eq_of_perm_of_sorted ((sortGens_perm l).trans (hp.trans (sortGens_perm l').symm))
    (sortGens_sorted l) (sortGens_sorted l')

/-- A sorted permutation of a duplicate-free list whose maximum is `m` ends
in `m`, and `m` occurs nowhere earlier. -/
theorem sorted_perm_max_last {L gens : List Nat} {m : Nat} (hs : L.Sorted (· ≤ ·))
    (hp : L.Perm gens) (hmem : m ∈ gens) (hmax : ∀ g ∈ gens, g ≤ m) (hnd : gens.Nodup) :
    ∃ init, L = init ++ [m] ∧ m ∉ init := by
  have hmemL : m ∈ L := hp.mem_iff.2 hmem
  have hne : L ≠ [] := fun h => by simp [h] at hmemL
  obtain ⟨init, last, hL⟩ : ∃ init last, L = init ++ [last] :=
    ⟨L.dropLast, L.getLast hne, (List.dropLast_append_getLast hne).symm⟩
  have hlastm : last = m := by
    have hlastmem : last ∈ gens := hp.mem_iff.1 (by simp [hL])
    have h1 : last ≤ m := hmax last hlastmem
    have h2 : m ≤ last := by
      rcases (List.mem_append.1 (hL ▸ hmemL)) with hin | hin
      · -- m in init: sortedness forces m ≤ last
        have := List.pairwise_append.1 (hL ▸ hs)
        exact this.2.2 m hin last (by simp)
      · simp at hin
        omega
    omega
  subst hlastm
  refine ⟨init, hL, fun hminit => ?_⟩
  have hndL : L.Nodup := hp.nodup_iff.2 hnd
  rw [hL] at hndL
  exact (List.disjoint_of_nodup_append hndL) hminit (by simp)

/-! ### Well-formed segment contents -/

/-- The byte content of a segment holding exactly the given records. -/
def encodeFile : List KvsCommand → List Char
  | [] => []
  | c :: cs => encodeCmd c ++ '\n' :: encodeFile cs

theorem encodeFile_append (a b : List KvsCommand) :
    encodeFile (a ++ b) = encodeFile a ++ encodeFile b := by
  induction a with
  | nil => simp [encodeFile]
  | cons c cs ih => simp [encodeFile, ih]

/-- Every record line read back from a record boundary is intact. -/
theorem readLine_encodeFile_head (pre : List Char) (c : KvsCommand) (tail : List Char) :
    readLine (pre ++ (encodeCmd c ++ '\n' :: tail)) pre.length = encodeCmd c ++ ['\n'] := by
  rw [readLine, List.drop_left]
  exact takeLine_append_newline (newline_not_mem_encodeCmd c) tail

/-- If a read at `pos` returns a newline-terminated line, appending to the
file does not change what that read returns. -/
theorem takeLine_decomp {y z : List Char} (h : takeLine y = z ++ ['\n']) :
    ∃ y', y = z ++ '\n' :: y' ∧ '\n' ∉ z := by
  induction y generalizing z with
  | nil => simp [takeLine] at h
  | cons c cs ih =>
    by_cases hc : c = '\n'
    · subst hc
      simp only [takeLine, if_pos rfl] at h
      have hz : z = [] := by
        cases z with
        | nil => rfl
        | cons a as =>
          have := congrArg List.length h
          simp at this
      subst hz
      exact ⟨cs, by simp, by simp⟩
    · simp only [takeLine, if_neg hc] at h
      cases z with
      | nil =>
        simp at h
        exact absurd h.1 hc
      | cons a as =>
        simp only [List.cons_append, List.cons.injEq] at h
        obtain ⟨rfl, h2⟩ := h
        obtain ⟨y', hy, hnl⟩ := ih h2
        refine ⟨y', by simp [hy], ?_⟩
        simp only [List.mem_cons, not_or]
        exact ⟨fun hh => hc hh.symm, hnl⟩

theorem takeLine_append_stable {y z : List Char} (h : takeLine y = z ++ ['\n'])
    (X : List Char) : takeLine (y ++ X) = z ++ ['\n'] := by
  obtain ⟨y', hy, hnl⟩ := takeLine_decomp h
  subst hy
  rw [List.append_assoc, List.cons_append]
  rw [show z ++ ('\n' :: (y' ++ X)) = z ++ '\n' :: (y' ++ X) by simp]
  exact takeLine_append_newline hnl _

theorem readLine_append_stable {content z : List Char} {pos : Nat}
    (h : readLine content pos = z ++ ['\n']) (X : List Char) :
    readLine (content ++ X) pos = z ++ ['\n'] := by
  have hlt : pos ≤ content.length := by
    by_contra hgt
    rw [readLine, List.drop_eq_nil_of_le (by omega)] at h
    simp [takeLine] at h
  rw [readLine, List.drop_append_of_le_length hlt]
  exact takeLine_append_stable h X

/-! ### The invariant tying a store to its reference mapping -/

/-- Every index entry points (through the directory) at an intact,
newline-terminated `Set` record carrying its key and the reference value;
index and reference mapping bind exactly the same keys. -/
def PointsTo (files : List (Nat × List Char)) (idx : List (String × IndexMeta))
    (spec : List (String × String)) : Prop :=
  ∀ k, match alookup idx k, alookup spec k with
  | none, none => True
  | some m, some v =>
      readLine ((alookup files m.gen).getD []) m.pos = encodeCmd (.Set k v) ++ ['\n']
  | _, _ => False

theorem pointsTo_none {files idx spec} (h : PointsTo files idx spec) {k : String}
    (hk : alookup idx k = none) : alookup spec k = none := by
  have := h k
  rw [hk] at this
  cases hs : alookup spec k with
  | none => rfl
  | some v => rw [hs] at this; exact absurd this (by simp)

theorem pointsTo_some {files idx spec} (h : PointsTo files idx spec) {k : String}
    {m : IndexMeta} (hk : alookup idx k = some m) :
    ∃ v, alookup spec k = some v ∧
      readLine ((alookup files m.gen).getD []) m.pos = encodeCmd (.Set k v) ++ ['\n'] := by
  have := h k
  rw [hk] at this
  cases hs : alookup spec k with
  | none => rw [hs] at this; exact absurd this (by simp)
  | some v => rw [hs] at this; exact ⟨v, rfl, this⟩

theorem pointsTo_of_spec_some {files idx spec} (h : PointsTo files idx spec) {k : String}
    {v : String} (hk : alookup spec k = some v) : ∃ m, alookup idx k = some m := by
  have := h k
  rw [hk] at this
  cases hi : alookup idx k with
  | none => rw [hi] at this; exact absurd this (by simp)
  | some m => exact ⟨m, rfl⟩

/-- One record's effect on the reference mapping. -/
def semLine (m : List (String × String)) : KvsCommand → List (String × String)
  | .Set k v => ainsert m k v
  | .Remove k => aerase m k

/-- A segment's effect on the reference mapping, front to back. -/
def semFile (cmds : List KvsCommand) (m : List (String × String)) : List (String × String) :=
  cmds.foldl semLine m

/-- The reference mapping encoded by a directory of segments, replayed in
ascending generation order. -/
def semSegs (segs : List (Nat × List KvsCommand)) : List (String × String) :=
  (sortGens (akeys segs)).foldl (fun m g => semFile ((alookup segs g).getD []) m) []

/-- The directory holds exactly these records, segment by segment. -/
def SegsRep (files : List (Nat × List Char)) (segs : List (Nat × List KvsCommand)) : Prop :=
  files = segs.map (fun p => (p.1, encodeFile p.2))

/-- The reachability invariant relating a live store, its directory, and the
reference key-value mapping `spec`. -/
structure Inv (st : KvStore) (spec : List (String × String)) : Prop where
  cursor_eq : (fileContent st st.gen).length = st.cursor
  reader_files : ∀ g, (alookup st.readers g).isSome ↔ (alookup st.files g).isSome
  files_nodup : (akeys st.files).Nodup
  gens_le : ∀ p ∈ st.files, p.1 ≤ st.gen
  active_file : (alookup st.files st.gen).isSome
  index_nodup : (akeys st.index).Nodup
  points : PointsTo st.files st.index spec
  segs : ∃ segs, SegsRep st.files segs ∧ ∀ k, alookup (semSegs segs) k = alookup spec k

/-- Pointwise-equal reference mappings give the same invariant. -/
theorem inv_congr {st : KvStore} {spec spec' : List (String × String)} (h : Inv st spec)
    (heq : ∀ k, alookup spec k = alookup spec' k) : Inv st spec' := by
  refine ⟨h.cursor_eq, h.reader_files, h.files_nodup, h.gens_le, h.active_file, h.index_nodup,
    ?_, ?_⟩
  · intro k
    have := h.points k
    rw [heq k] at this
    exact this
  · obtain ⟨segs, hrep, hsem⟩ := h.segs
    exact ⟨segs, hrep, fun k => (hsem k).trans (heq k)⟩

/-- If an index entry points at an intact record, its segment is on disk
(an empty read returns no line). -/
theorem file_isSome_of_points {files : List (Nat × List Char)} {m : IndexMeta} {z : List Char}
    (h : readLine ((alookup files m.gen).getD []) m.pos = z ++ ['\n']) :
    (alookup files m.gen).isSome := by
  cases hf : alookup files m.gen with
  | some _ => rfl
  | none =>
    rw [hf] at h
    simp [readLine, takeLine] at h

/-- Read-path correctness: under the invariant, `get` returns `Ok` with
exactly the reference mapping's binding (`Ok(None)` when unbound). -/
theorem inv_get {st : KvStore} {spec : List (String × String)} (h : Inv st spec)
    (key : String) : (get st key).val = some (alookup spec key) := by
  cases hidx : alookup st.index key with
  | none =>
    rw [pointsTo_none h.points hidx]
    simp [get, hidx, OpResult.val]
  | some m =>
    obtain ⟨v, hspec, hread⟩ := pointsTo_some h.points hidx
    have hfile : (alookup st.files m.gen).isSome := file_isSome_of_points hread
    have hreader : (alookup st.readers m.gen).isSome := (h.reader_files m.gen).2 hfile
    rw [hspec]
    rw [Option.isSome_iff_exists] at hreader
    obtain ⟨pos, hr⟩ := hreader
    have hdec : decodeCmd (readLine (fileContent st m.gen) m.pos) = some (.Set key v) := by
      rw [show fileContent st m.gen = (alookup st.files m.gen).getD [] from rfl, hread]
      rw [show encodeCmd (.Set key v) ++ ['\n'] =
        encodeCmd (KvsCommand.Set key v) ++ ['\n'] from rfl]
      exact decodeCmd_encodeCmd (.Set key v)
    simp only [get, hidx, hr, hdec, OpResult.val]

/-- The invariant holds for the store `open` returns on an empty directory,
with the empty reference mapping. -/
theorem inv_freshStore : Inv freshStore [] := by
  refine ⟨?_, ?_, ?_, ?_, ?_, ?_, ?_, ?_⟩
  · rfl
  · intro g
    by_cases hg : g = 0 <;> simp [freshStore, alookup, hg]
  · simp [freshStore, akeys]
  · intro p hp
    simp only [freshStore, List.mem_singleton] at hp
    simp [hp]
  · rfl
  · simp [freshStore, akeys]
  · intro k
    simp [freshStore, alookup]
  · refine ⟨[(0, [])], rfl, ?_⟩
    intro k
    simp [semSegs, akeys, sortGens, insertSorted, alookup, semFile, encodeFile]

/-! ### Appending a record to the active segment -/

theorem akeys_aerase_perm_of_mem {α β : Type} [DecidableEq α] {l : List (α × β)} {key : α}
    (hnd : (akeys l).Nodup) (hmem : key ∈ akeys l) :
    (akeys l).Perm (key :: akeys (aerase l key)) := by
  induction l with
  | nil => simp [akeys] at hmem
  | cons p rest ih =>
    rcases p with ⟨a, b⟩
    simp only [akeys, List.map_cons, List.nodup_cons] at hnd
    by_cases hak : a = key
    · subst hak
      have hnotin : a ∉ akeys rest := by simpa [akeys] using hnd.1
      rw [show aerase ((a, b) :: rest) a = aerase rest a by simp [aerase]]
      rw [aerase_eq_self_of_not_mem hnotin]
      rfl
    · have hmem' : key ∈ akeys rest := by
        have hmem2 : key ∈ a :: akeys rest := hmem
        rcases List.mem_cons.1 hmem2 with h | h
        · exact absurd h.symm hak
        · exact h
      have hih := ih (by simpa [akeys] using hnd.2) hmem'
      have h1 : akeys ((a, b) :: rest) = a :: akeys rest := rfl
      have h2 : akeys (aerase ((a, b) :: rest) key) = a :: akeys (aerase rest key) := by
        simp [aerase, akeys, hak]
      rw [h1, h2]
      exact (hih.cons a).trans (List.Perm.swap key a _)

theorem akeys_ainsert_perm {α β : Type} [DecidableEq α] {l : List (α × β)} {key : α}
    (hnd : (akeys l).Nodup) (hmem : key ∈ akeys l) (v : β) :
    (akeys (ainsert l key v)).Perm (akeys l) := by
  rw [show akeys (ainsert l key v) = key :: akeys (aerase l key) by simp [ainsert, akeys]]
  exact (akeys_aerase_perm_of_mem hnd hmem).symm

theorem foldl_semFile_congr {A B : List (Nat × List KvsCommand)} (L : List Nat)
    (h : ∀ x ∈ L, alookup A x = alookup B x) (m0 : List (String × String)) :
    L.foldl (fun m g => semFile ((alookup A g).getD []) m) m0 =
      L.foldl (fun m g => semFile ((alookup B g).getD []) m) m0 := by
  induction L generalizing m0 with
  | nil => rfl
  | cons x L ih =>
    simp only [List.foldl_cons]
    rw [h x (List.mem_cons_self x L)]
    exact ih (fun y hy => h y (List.mem_cons_of_mem x hy)) _

/-- Appending one record to the maximal (active) segment applies exactly
that record's effect to the directory's reference mapping: last-writer-wins
because the active generation replays last. -/
theorem semSegs_ainsert_active {segs : List (Nat × List KvsCommand)} {g : Nat}
    {cmds : List KvsCommand} (hnd : (akeys segs).Nodup) (hmem : alookup segs g = some cmds)
    (hmax : ∀ p ∈ segs, p.1 ≤ g) (c : KvsCommand) :
    semSegs (ainsert segs g (cmds ++ [c])) = semLine (semSegs segs) c := by
  have hgmem : g ∈ akeys segs := (alookup_isSome_iff_mem_akeys segs g).1 (by simp [hmem])
  have hperm : (akeys (ainsert segs g (cmds ++ [c]))).Perm (akeys segs) :=
    akeys_ainsert_perm hnd hgmem _
  have hsort : sortGens (akeys (ainsert segs g (cmds ++ [c]))) = sortGens (akeys segs) :=
    sortGens_eq_of_perm hperm
  have hmax' : ∀ x ∈ akeys segs, x ≤ g := by
    intro x hx
    obtain ⟨p, hp, hpx⟩ := List.mem_map.1 hx
    exact hpx ▸ hmax p hp
  obtain ⟨init, hL, hginit⟩ := sorted_perm_max_last (sortGens_sorted (akeys segs))
    (sortGens_perm (akeys segs)) hgmem hmax' hnd
  have hlook_init : ∀ x ∈ init, alookup (ainsert segs g (cmds ++ [c])) x = alookup segs x := by
    intro x hx
    rw [alookup_ainsert]
    rw [if_neg (fun h => hginit (by rw [← h] at hx; exact hx))]
  unfold semSegs
  rw [hsort, hL]
  rw [List.foldl_append, List.foldl_append]
  rw [foldl_semFile_congr init hlook_init]
  simp only [List.foldl_cons, List.foldl_nil]
  rw [alookup_ainsert_self, hmem]
  simp only [Option.getD_some]
  rw [show semFile (cmds ++ [c]) _ = _ from List.foldl_append .. ]
  simp [semFile]

/-- What the active segment holds, as records, under the invariant. -/
theorem active_segs {st : KvStore} {spec : List (String × String)} (h : Inv st spec)
    {segs : List (Nat × List KvsCommand)} (hrep : SegsRep st.files segs) :
    ∃ cmds, alookup segs st.gen = some cmds ∧ fileContent st st.gen = encodeFile cmds := by
  have halook : alookup st.files st.gen = (alookup segs st.gen).map encodeFile := by
    rw [hrep]
    exact alookup_map_value encodeFile segs st.gen
  have hsome := h.active_file
  rw [halook] at hsome
  cases hseg : alookup segs st.gen with
  | none => rw [hseg] at hsome; simp at hsome
  | some cmds =>
    refine ⟨cmds, rfl, ?_⟩
    rw [fileContent, halook, hseg]
    rfl

/-- Writing one record through `log_cmd` and applying the matching index
update preserves the invariant, against the reference mapping updated by the
same record.  This is the state `set` and `remove` reach just before their
threshold check. -/
theorem inv_append_record {st : KvStore} {spec : List (String × String)} (h : Inv st spec)
    (c : KvsCommand)
    (idx2 : List (String × IndexMeta)) (spec2 : List (String × String))
    (hidx2 : idx2 = applyCmd st.gen st.cursor st.index c)
    (hspec2 : spec2 = semLine spec c) :
    Inv { log_cmd st (encodeCmd c) with index := idx2 } spec2 := by
  obtain ⟨segs, hrep, hsem⟩ := h.segs
  obtain ⟨cmds, hseg, hcont⟩ := active_segs h hrep
  have hst2 : ({ log_cmd st (encodeCmd c) with index := idx2 } : KvStore) =
      { index := idx2
        readers := st.readers
        files := ainsert st.files st.gen (fileContent st st.gen ++ (encodeCmd c ++ ['\n']))
        gen := st.gen
        cursor := st.cursor + ((encodeCmd c).length + 1) } := by
    simp [log_cmd]
  rw [hst2]
  have hlookup_act :
      alookup (ainsert st.files st.gen (fileContent st st.gen ++ (encodeCmd c ++ ['\n'])))
        st.gen = some (fileContent st st.gen ++ (encodeCmd c ++ ['\n'])) :=
    alookup_ainsert_self ..
  have hlookup_ne : ∀ g, g ≠ st.gen →
      alookup (ainsert st.files st.gen (fileContent st st.gen ++ (encodeCmd c ++ ['\n']))) g =
      alookup st.files g := by
    intro g hg
    rw [alookup_ainsert, if_neg (fun hh => hg hh.symm)]
  have hstable : ∀ (k' : String) (m : IndexMeta) (v' : String),
      readLine ((alookup st.files m.gen).getD []) m.pos = encodeCmd (.Set k' v') ++ ['\n'] →
      readLine ((alookup
          (ainsert st.files st.gen (fileContent st st.gen ++ (encodeCmd c ++ ['\n'])))
          m.gen).getD []) m.pos = encodeCmd (.Set k' v') ++ ['\n'] := by
    intro k' m v' hread
    by_cases hmg : m.gen = st.gen
    · rw [hmg] at hread ⊢
      rw [hlookup_act]
      simp only [Option.getD_some]
      exact @readLine_append_stable _ (encodeCmd (KvsCommand.Set k' v')) _ hread
        (encodeCmd c ++ ['\n'])
    · rw [hlookup_ne _ hmg]
      exact hread
  refine ⟨?_, ?_, ?_, ?_, ?_, ?_, ?_, ?_⟩
  · -- cursor_eq
    show ((alookup (ainsert st.files st.gen
        (fileContent st st.gen ++ (encodeCmd c ++ ['\n']))) st.gen).getD []).length = _
    rw [hlookup_act]
    simp [h.cursor_eq]
  · -- reader_files
    intro g
    show (alookup st.readers g).isSome ↔ _
    by_cases hg : g = st.gen
    · subst hg
      rw [hlookup_act]
      simp [(h.reader_files st.gen).2 h.active_file]
    · rw [hlookup_ne _ hg]
      exact h.reader_files g
  · -- files_nodup
    exact akeys_ainsert_nodup _ _ _ h.files_nodup
  · -- gens_le
    intro p hp
    show p.1 ≤ st.gen
    rcases List.mem_cons.1 hp with heq | hmem
    · rw [heq]
    · exact h.gens_le p (mem_of_mem_aerase hmem)
  · -- active_file
    show (alookup (ainsert st.files st.gen
        (fileContent st st.gen ++ (encodeCmd c ++ ['\n']))) st.gen).isSome
    rw [hlookup_act]
    rfl
  · -- index_nodup
    show (akeys idx2).Nodup
    rw [hidx2]
    cases c with
    | Set k v => exact akeys_ainsert_nodup _ _ _ h.index_nodup
    | Remove k => exact akeys_aerase_nodup _ _ h.index_nodup
  · -- points
    intro k'
    show (match alookup idx2 k', alookup spec2 k' with
      | none, none => True
      | some m, some v =>
          readLine ((alookup (ainsert st.files st.gen
            (fileContent st st.gen ++ (encodeCmd c ++ ['\n']))) m.gen).getD []) m.pos =
            encodeCmd (.Set k' v) ++ ['\n']
      | _, _ => False)
    rw [hidx2, hspec2]
    cases c with
    | Set k v =>
      by_cases hk : k = k'
      · subst hk
        simp only [applyCmd, semLine, alookup_ainsert_self]
        simp only [Option.getD_some]
        rw [show st.cursor = (fileContent st st.gen).length from h.cursor_eq.symm]
        have harr : fileContent st st.gen ++ (encodeCmd (KvsCommand.Set k v) ++ ['\n']) =
            fileContent st st.gen ++ (encodeCmd (KvsCommand.Set k v) ++ '\n' :: []) := rfl
        rw [harr]
        exact readLine_encodeFile_head (fileContent st st.gen) (.Set k v) []
      · simp only [applyCmd, semLine]
        rw [alookup_ainsert, if_neg hk, alookup_ainsert, if_neg hk]
        have hpt := h.points k'
        cases hi : alookup st.index k' with
        | none =>
          rw [hi] at hpt
          cases hs : alookup spec k' with
          | none => trivial
          | some v' => rw [hs] at hpt; exact absurd hpt (by simp)
        | some m =>
          obtain ⟨v', hs, hread⟩ := pointsTo_some h.points hi
          rw [hs]
          exact hstable k' m v' hread
    | Remove k =>
      by_cases hk : k = k'
      · subst hk
        simp only [applyCmd, semLine]
        rw [alookup_aerase, if_pos rfl, alookup_aerase, if_pos rfl]
        trivial
      · simp only [applyCmd, semLine]
        rw [alookup_aerase, if_neg hk, alookup_aerase, if_neg hk]
        have hpt := h.points k'
        cases hi : alookup st.index k' with
        | none =>
          rw [hi] at hpt
          cases hs : alookup spec k' with
          | none => trivial
          | some v' => rw [hs] at hpt; exact absurd hpt (by simp)
        | some m =>
          obtain ⟨v', hs, hread⟩ := pointsTo_some h.points hi
          rw [hs]
          exact hstable k' m v' hread
  · -- segs
    refine ⟨ainsert segs st.gen (cmds ++ [c]), ?_, ?_⟩
    · show ainsert st.files st.gen (fileContent st st.gen ++ (encodeCmd c ++ ['\n'])) = _
      rw [hcont]
      have hencfile : encodeFile (cmds ++ [c]) = encodeFile cmds ++ (encodeCmd c ++ ['\n']) := by
        rw [encodeFile_append]
        simp [encodeFile]
      rw [← hencfile, hrep]
      exact ainsert_map_value encodeFile segs st.gen (cmds ++ [c])
    · intro k'
      have hnd : (akeys segs).Nodup := by
        have := h.files_nodup
        rw [hrep, akeys_map_value] at this
        exact this
      have hmax : ∀ p ∈ segs, p.1 ≤ st.gen := by
        intro p hp
        have : (p.1, encodeFile p.2) ∈ st.files := by
          rw [hrep]
          exact List.mem_map_of_mem _ hp
        exact h.gens_le _ this
      rw [semSegs_ainsert_active hnd hseg hmax c, hspec2]
      cases c with
      | Set k v =>
        simp only [semLine]
        rw [alookup_ainsert, alookup_ainsert]
        split
        · rfl
        · exact hsem k'
      | Remove k =>
        simp only [semLine]
        rw [alookup_aerase, alookup_aerase]
        split
        · rfl
        · exact hsem k'

/-! ### Compaction -/

theorem alookup_some_mem {α β : Type} [DecidableEq α] {l : List (α × β)} {k : α} {v : β}
    (h : alookup l k = some v) : (k, v) ∈ l := by
  induction l with
  | nil => simp [alookup] at h
  | cons p rest ih =>
    rcases p with ⟨a, b⟩
    by_cases hak : a = k
    · subst hak
      rw [show alookup ((a, b) :: rest) a = some b by simp [alookup]] at h
      injection h with h
      subst h
      exact List.mem_cons_self _ _
    · simp only [alookup, if_neg hak] at h
      exact List.mem_cons_of_mem _ (ih h)

theorem not_mem_akeys_aerase {α β : Type} [DecidableEq α] (l : List (α × β)) (key : α) :
    key ∉ akeys (aerase l key) := by
  induction l with
  | nil => simp [aerase, akeys]
  | cons p rest ih =>
    rcases p with ⟨a, b⟩
    simp only [aerase]
    split
    · exact ih
    · next hne => simpa [akeys, Ne.symm hne] using ih

theorem aerase_aerase {α β : Type} [DecidableEq α] (l : List (α × β)) (key : α) :
    aerase (aerase l key) key = aerase l key :=
  aerase_eq_self_of_not_mem (not_mem_akeys_aerase l key)

/-- Last-writer-wins over a block of `Set` records with a fixed per-key
value function. -/
theorem semFile_map_set (V : String → String) (l : List (String × IndexMeta)) :
    ∀ (m0 : List (String × String)) (k : String),
      alookup (semFile (l.map fun p => KvsCommand.Set p.1 (V p.1)) m0) k =
        if k ∈ akeys l then some (V k) else alookup m0 k := by
  induction l with
  | nil => intro m0 k; simp [semFile, akeys]
  | cons p rest ih =>
    intro m0 k
    rcases p with ⟨a, bm⟩
    show alookup (semFile _ (semLine m0 (KvsCommand.Set a (V a)))) k = _
    rw [ih]
    simp only [semLine]
    by_cases hmem : k ∈ akeys rest
    · rw [if_pos hmem,
        if_pos (show k ∈ akeys ((a, bm) :: rest) from List.mem_cons_of_mem _ hmem)]
    · rw [if_neg hmem, alookup_ainsert]
      by_cases hak : a = k
      · subst hak
        simp [akeys]
      · rw [if_neg hak]
        have : ¬k ∈ akeys ((a, bm) :: rest) := by
          simp only [akeys, List.map_cons, List.mem_cons, not_or]
          exact ⟨fun hh => hak hh.symm, hmem⟩
        rw [if_neg this]

/-- Correctness of the compaction loop: under per-entry pointing and handle
hypotheses it succeeds, appends exactly one intact record per entry to the
archive, keeps the handle set, keeps the key set, and leaves every rewritten
entry pointing at its own record inside the archive. -/
theorem compactLoop_ok (files2 : List (Nat × List Char)) (cg : Nat) (V : String → String) :
    ∀ (entries : List (String × IndexMeta)) (readers : List (Nat × Nat)) (buf : List Char),
    (∀ p ∈ entries, readLine ((alookup files2 p.2.gen).getD []) p.2.pos =
        encodeCmd (.Set p.1 (V p.1)) ++ ['\n']) →
    (∀ p ∈ entries, (alookup readers p.2.gen).isSome) →
    ∃ idx' rs',
      compactLoop files2 cg entries readers buf buf.length =
        some (idx', rs', buf ++ encodeFile (entries.map fun p => KvsCommand.Set p.1 (V p.1))) ∧
      (∀ g, (alookup rs' g).isSome ↔ (alookup readers g).isSome) ∧
      akeys idx' = akeys entries ∧
      (∀ (tail : List Char) (k : String) (m' : IndexMeta), alookup idx' k = some m' →
        m'.gen = cg ∧
        readLine (buf ++ encodeFile (entries.map fun p => KvsCommand.Set p.1 (V p.1)) ++ tail)
          m'.pos = encodeCmd (.Set k (V k)) ++ ['\n']) := by
  intro entries
  induction entries with
  | nil =>
    intro readers buf _ _
    refine ⟨[], readers, ?_, fun g => Iff.rfl, rfl, ?_⟩
    · simp [compactLoop, encodeFile]
    · intro tail k m' hm'
      simp [alookup] at hm'
  | cons e rest ih =>
    rcases e with ⟨k, m⟩
    intro readers buf hpts hrd
    have hread : readLine ((alookup files2 m.gen).getD []) m.pos =
        encodeCmd (.Set k (V k)) ++ ['\n'] := hpts (k, m) (List.mem_cons_self _ _)
    have hrsome : (alookup readers m.gen).isSome := hrd (k, m) (List.mem_cons_self _ _)
    rw [Option.isSome_iff_exists] at hrsome
    obtain ⟨pos0, hr0⟩ := hrsome
    have hlinelen : (readLine ((alookup files2 m.gen).getD []) m.pos).length =
        (encodeCmd (.Set k (V k))).length + 1 := by
      rw [hread]
      simp
    obtain ⟨idxr, rsr, hcall, hrs, hkeys, hpoint⟩ :=
      ih (ainsert readers m.gen (m.pos + (readLine ((alookup files2 m.gen).getD []) m.pos).length))
        (buf ++ readLine ((alookup files2 m.gen).getD []) m.pos)
        (fun p hp => hpts p (List.mem_cons_of_mem _ hp))
        (fun p hp => by
          rw [Option.isSome_iff_exists]
          rcases (alookup_ainsert_isSome readers m.gen p.2.gen _).2
            (Or.inr (hrd p (List.mem_cons_of_mem _ hp))) |> Option.isSome_iff_exists.1
            with ⟨q, hq⟩
          exact ⟨q, hq⟩)
    refine ⟨(k, ⟨cg, buf.length⟩) :: idxr, rsr, ?_, ?_, ?_, ?_⟩
    · show compactLoop files2 cg ((k, m) :: rest) readers buf buf.length = _
      rw [compactLoop, hr0]
      simp only
      rw [show (buf ++ readLine ((alookup files2 m.gen).getD []) m.pos).length =
          buf.length + (readLine ((alookup files2 m.gen).getD []) m.pos).length by simp] at hcall
      rw [hcall]
      rw [hread]
      have : (buf ++ (encodeCmd (KvsCommand.Set k (V k)) ++ ['\n'])) ++
          encodeFile (rest.map fun p => KvsCommand.Set p.1 (V p.1)) =
          buf ++ encodeFile (((k, m) :: rest).map fun p => KvsCommand.Set p.1 (V p.1)) := by
        simp only [List.map_cons, encodeFile, List.append_assoc, List.cons_append,
          List.nil_append]
      rw [this]
    · intro g
      rw [hrs g, alookup_ainsert_isSome]
      constructor
      · rintro (rfl | hs)
        · rw [hr0]; rfl
        · exact hs
      · intro hs
        exact Or.inr hs
    · show akeys ((k, (⟨cg, buf.length⟩ : IndexMeta)) :: idxr) = akeys ((k, m) :: rest)
      rw [show akeys ((k, (⟨cg, buf.length⟩ : IndexMeta)) :: idxr) = k :: akeys idxr from rfl,
        show akeys ((k, m) :: rest) = k :: akeys rest from rfl, hkeys]
    · intro tail k0 m0 hm0
      by_cases hk0 : k = k0
      · subst hk0
        rw [show alookup ((k, (⟨cg, buf.length⟩ : IndexMeta)) :: idxr) k =
            some ⟨cg, buf.length⟩ by simp [alookup]] at hm0
        injection hm0 with hm0
        subst hm0
        refine ⟨rfl, ?_⟩
        have harr : buf ++ encodeFile (((k, m) :: rest).map fun p =>
            KvsCommand.Set p.1 (V p.1)) ++ tail =
            buf ++ (encodeCmd (KvsCommand.Set k (V k)) ++ '\n' ::
              (encodeFile (rest.map fun p => KvsCommand.Set p.1 (V p.1)) ++ tail)) := by
          simp [encodeFile, List.append_assoc]
        rw [harr]
        exact readLine_encodeFile_head buf (.Set k (V k)) _
      · rw [show alookup ((k, (⟨cg, buf.length⟩ : IndexMeta)) :: idxr) k0 =
            alookup idxr k0 by simp [alookup, hk0]] at hm0
        obtain ⟨hgen, hrd2⟩ := hpoint tail k0 m0 hm0
        refine ⟨hgen, ?_⟩
        rw [hread] at hrd2
        have harr : (buf ++ (encodeCmd (KvsCommand.Set k (V k)) ++ ['\n'])) ++
            encodeFile (rest.map fun p => KvsCommand.Set p.1 (V p.1)) ++ tail =
            buf ++ encodeFile (((k, m) :: rest).map fun p =>
              KvsCommand.Set p.1 (V p.1)) ++ tail := by
          simp [encodeFile, List.append_assoc]
        rw [← harr]
        exact hrd2

theorem alookup_readers_filter (cg : Nat) (disk : List Nat) (l : List (Nat × Nat)) (g : Nat) :
    alookup (l.filter (fun p => ¬(p.1 < cg ∧ p.1 ∈ disk))) g =
    if ¬(g < cg ∧ g ∈ disk) then alookup l g else none := by
  induction l with
  | nil => simp [alookup]
  | cons p rest ih =>
    rcases p with ⟨a, b⟩
    by_cases hpa : ¬(a < cg ∧ a ∈ disk)
    · rw [List.filter_cons_of_pos (by simp only [decide_eq_true_eq]; exact hpa)]
      by_cases hag : a = g
      · subst hag
        simp [alookup, hpa]
      · rw [show alookup ((a, b) :: List.filter _ rest) g =
            alookup (List.filter (fun p => ¬(p.1 < cg ∧ p.1 ∈ disk)) rest) g by
            simp [alookup, hag]]
        rw [ih]
        split
        · simp [alookup, hag]
        · rfl
    · rw [List.filter_cons_of_neg (by simp only [decide_eq_true_eq]; exact hpa)]
      rw [ih]
      by_cases hag : a = g
      · subst hag
        rw [if_neg hpa, if_neg hpa]
      · split
        · simp [alookup, hag]
        · rfl

/-- `compact` under the invariant: it succeeds, preserves the reference
mapping, bumps the active generation by two, and leaves on disk exactly the
archive (`gen + 1`) and the fresh active segment (`gen + 2`), whose handles
are the only ones left open. -/
theorem inv_compact {st : KvStore} {spec : List (String × String)} (h : Inv st spec) :
    ∃ st', compact st = .ok () st' ∧ Inv st' spec ∧
      st'.gen = st.gen + 2 ∧ st'.cursor = 0 ∧
      (∃ buf, st'.files = [(st.gen + 1, buf), (st.gen + 2, [])]) ∧
      (∀ g, (alookup st'.readers g).isSome ↔ (g = st.gen + 1 ∨ g = st.gen + 2)) := by
  have hkeys_le : ∀ g ∈ akeys st.files, g ≤ st.gen := by
    intro g hg
    obtain ⟨p, hp, hpg⟩ := List.mem_map.1 hg
    exact hpg ▸ h.gens_le p hp
  have hnm2 : (st.gen + 2) ∉ akeys st.files := fun hmem => by
    have := hkeys_le _ hmem
    omega
  have hnm1 : (st.gen + 1) ∉ akeys st.files := fun hmem => by
    have := hkeys_le _ hmem
    omega
  have hfiles1 : ainsert st.files (st.gen + 2) ([] : List Char) = (st.gen + 2, []) :: st.files := by
    rw [ainsert, aerase_eq_self_of_not_mem hnm2]
  have hfiles2 : ainsert (ainsert st.files (st.gen + 2) ([] : List Char)) (st.gen + 1) [] =
      (st.gen + 1, []) :: (st.gen + 2, []) :: st.files := by
    rw [hfiles1, ainsert]
    rw [show aerase ((st.gen + 2, ([] : List Char)) :: st.files) (st.gen + 1) =
        (st.gen + 2, []) :: aerase st.files (st.gen + 1) by
      simp [aerase, show ¬st.gen + 2 = st.gen + 1 by omega]]
    rw [aerase_eq_self_of_not_mem hnm1]
  have hlookup_files2 : ∀ g, g ≤ st.gen →
      alookup ((st.gen + 1, ([] : List Char)) :: (st.gen + 2, []) :: st.files) g =
      alookup st.files g := by
    intro g hg
    simp [alookup, show ¬st.gen + 1 = g by omega, show ¬st.gen + 2 = g by omega]
  -- the per-entry hypotheses of the loop
  have hmemgen : ∀ p ∈ st.index, p.2.gen ≤ st.gen := by
    intro p hp
    have hidx : alookup st.index p.1 = some p.2 := alookup_of_mem_nodup h.index_nodup (by
      rcases p with ⟨k0, m0⟩
      exact hp)
    obtain ⟨v, hs, hread⟩ := pointsTo_some h.points hidx
    have hfile := file_isSome_of_points hread
    have hmem : p.2.gen ∈ akeys st.files := (alookup_isSome_iff_mem_akeys _ _).1 hfile
    exact hkeys_le _ hmem
  have hpts : ∀ p ∈ st.index,
      readLine ((alookup ((st.gen + 1, ([] : List Char)) :: (st.gen + 2, []) :: st.files)
        p.2.gen).getD []) p.2.pos =
        encodeCmd (.Set p.1 ((alookup spec p.1).getD "")) ++ ['\n'] := by
    intro p hp
    have hidx : alookup st.index p.1 = some p.2 := alookup_of_mem_nodup h.index_nodup (by
      rcases p with ⟨k0, m0⟩
      exact hp)
    obtain ⟨v, hs, hread⟩ := pointsTo_some h.points hidx
    rw [hlookup_files2 _ (hmemgen p hp), hs]
    simpa using hread
  have hrd : ∀ p ∈ st.index,
      (alookup (ainsert (ainsert st.readers (st.gen + 2) 0) (st.gen + 1) 0) p.2.gen).isSome := by
    intro p hp
    have hidx : alookup st.index p.1 = some p.2 := alookup_of_mem_nodup h.index_nodup (by
      rcases p with ⟨k0, m0⟩
      exact hp)
    obtain ⟨v, hs, hread⟩ := pointsTo_some h.points hidx
    have hfile := file_isSome_of_points hread
    have hrd0 : (alookup st.readers p.2.gen).isSome := (h.reader_files _).2 hfile
    exact (alookup_ainsert_isSome _ _ _ _).2 (Or.inr ((alookup_ainsert_isSome _ _ _ _).2
      (Or.inr hrd0)))
  obtain ⟨idx', rs', hcall, hrs, hkeys, hpoint⟩ :=
    compactLoop_ok ((st.gen + 1, []) :: (st.gen + 2, []) :: st.files) (st.gen + 1)
      (fun k => (alookup spec k).getD "") st.index
      (ainsert (ainsert st.readers (st.gen + 2) 0) (st.gen + 1) 0) [] hpts hrd
  set recs := st.index.map (fun p => KvsCommand.Set p.1 ((alookup spec p.1).getD "")) with hrecs
  rw [show (([] : List Char)).length = 0 from rfl, List.nil_append] at hcall
  -- assemble the result state
  refine ⟨{ index := idx'
            readers := rs'.filter (fun p => ¬(p.1 < st.gen + 1 ∧
              p.1 ∈ akeys (ainsert ((st.gen + 1, ([] : List Char)) :: (st.gen + 2, []) ::
                st.files) (st.gen + 1) (encodeFile recs))))
            files := (ainsert ((st.gen + 1, ([] : List Char)) :: (st.gen + 2, []) :: st.files)
              (st.gen + 1) (encodeFile recs)).filter (fun p => ¬ p.1 < st.gen + 1)
            gen := st.gen + 2
            cursor := 0 }, ?_, ?_⟩
  · show compact st = _
    simp only [compact]
    rw [show st.gen + 2 - 1 = st.gen + 1 from rfl, hfiles2, hcall]
  · -- the state's components, concretely
    have hfiles3 : ainsert ((st.gen + 1, ([] : List Char)) :: (st.gen + 2, []) :: st.files)
        (st.gen + 1) (encodeFile recs) =
        (st.gen + 1, encodeFile recs) :: (st.gen + 2, []) :: st.files := by
      rw [ainsert]
      rw [show aerase ((st.gen + 1, ([] : List Char)) :: (st.gen + 2, []) :: st.files)
          (st.gen + 1) = (st.gen + 2, []) :: aerase st.files (st.gen + 1) by
        simp [aerase, show ¬st.gen + 2 = st.gen + 1 by omega]]
      rw [aerase_eq_self_of_not_mem hnm1]
    have hfiles4 : ((ainsert ((st.gen + 1, ([] : List Char)) :: (st.gen + 2, []) :: st.files)
        (st.gen + 1) (encodeFile recs)).filter (fun p => ¬ p.1 < st.gen + 1)) =
        [(st.gen + 1, encodeFile recs), (st.gen + 2, [])] := by
      rw [hfiles3]
      rw [List.filter_cons_of_pos (by simp), List.filter_cons_of_pos (by
        simp only [decide_eq_true_eq]
        omega)]
      rw [List.filter_eq_nil_iff.2 (fun p hp => by
        have := h.gens_le p hp
        simp only [decide_eq_true_eq, Decidable.not_not]
        omega)]
    have hreaders4 : ∀ g,
        (alookup (rs'.filter (fun p => ¬(p.1 < st.gen + 1 ∧
          p.1 ∈ akeys (ainsert ((st.gen + 1, ([] : List Char)) :: (st.gen + 2, []) ::
            st.files) (st.gen + 1) (encodeFile recs))))) g).isSome ↔
        (g = st.gen + 1 ∨ g = st.gen + 2) := by
      intro g
      rw [alookup_readers_filter]
      by_cases hg1 : g = st.gen + 1
      · subst hg1
        rw [if_pos (by simp)]
        rw [hrs]
        simp [alookup_ainsert_isSome]
      · by_cases hg2 : g = st.gen + 2
        · subst hg2
          rw [if_pos (by
            intro hc
            omega)]
          rw [hrs]
          simp [alookup_ainsert_isSome]
        · -- old generation
          by_cases hsome : (alookup st.readers g).isSome
          · have hfg : (alookup st.files g).isSome := (h.reader_files g).1 hsome
            have hmem : g ∈ akeys st.files := (alookup_isSome_iff_mem_akeys _ _).1 hfg
            have hlt : g < st.gen + 1 := by
              have := hkeys_le _ hmem
              omega
            rw [if_neg (by
              simp only [Decidable.not_not]
              refine ⟨hlt, ?_⟩
              rw [hfiles3]
              show g ∈ (st.gen + 1) :: (st.gen + 2) :: akeys st.files
              exact List.mem_cons_of_mem _ (List.mem_cons_of_mem _ hmem))]
            simp [hg1, hg2]
          · have hnone : ¬(alookup rs' g).isSome := by
              rw [hrs g, alookup_ainsert_isSome, alookup_ainsert_isSome]
              push_neg
              exact ⟨hg1, hg2, by simpa using hsome⟩
            split
            · constructor
              · intro hx
                exact absurd hx hnone
              · rintro (hx | hx)
                · exact absurd hx hg1
                · exact absurd hx hg2
            · constructor
              · intro hx
                simp at hx
              · rintro (hx | hx)
                · exact absurd hx hg1
                · exact absurd hx hg2
    have hfiso : ∀ g,
        (alookup [(st.gen + 1, encodeFile recs), (st.gen + 2, ([] : List Char))] g).isSome ↔
        (g = st.gen + 1 ∨ g = st.gen + 2) := by
      intro g
      by_cases hg1 : g = st.gen + 1
      · subst hg1
        simp [alookup]
      · by_cases hg2 : g = st.gen + 2
        · subst hg2
          simp [alookup, show ¬st.gen + 1 = st.gen + 2 by omega]
        · have hl : alookup [(st.gen + 1, encodeFile recs), (st.gen + 2, ([] : List Char))] g =
              none := by
            simp only [alookup]
            rw [if_neg (fun hh => hg1 hh.symm), if_neg (fun hh => hg2 hh.symm)]
          rw [hl]
          simp [hg1, hg2]
    refine ⟨?_, rfl, rfl, ⟨encodeFile recs, hfiles4⟩, hreaders4⟩
    -- the invariant for the compacted store
    have hspec_keys : ∀ k, (alookup spec k).isSome ↔ k ∈ akeys st.index := by
      intro k
      constructor
      · intro hs
        rw [Option.isSome_iff_exists] at hs
        obtain ⟨v, hv⟩ := hs
        obtain ⟨m0, hm0⟩ := pointsTo_of_spec_some h.points hv
        exact (alookup_isSome_iff_mem_akeys _ _).1 (by simp [hm0])
      · intro hmem
        have := (alookup_isSome_iff_mem_akeys st.index k).2 hmem
        rw [Option.isSome_iff_exists] at this
        obtain ⟨m0, hm0⟩ := this
        obtain ⟨v, hv, _⟩ := pointsTo_some h.points hm0
        simp [hv]
    refine ⟨?_, ?_, ?_, ?_, ?_, ?_, ?_, ?_⟩
    · -- cursor_eq
      show (fileContent _ (st.gen + 2)).length = 0
      rw [fileContent]
      show ((alookup ((ainsert ((st.gen + 1, ([] : List Char)) :: (st.gen + 2, []) :: st.files)
          (st.gen + 1) (encodeFile recs)).filter (fun p => ¬ p.1 < st.gen + 1))
          (st.gen + 2)).getD []).length = 0
      rw [hfiles4]
      simp [alookup, show ¬st.gen + 1 = st.gen + 2 by omega]
    · -- reader_files
      intro g
      show (alookup (rs'.filter _) g).isSome ↔ _
      rw [hreaders4 g]
      show _ ↔ (alookup ((ainsert ((st.gen + 1, ([] : List Char)) :: (st.gen + 2, []) ::
          st.files) (st.gen + 1) (encodeFile recs)).filter (fun p => ¬ p.1 < st.gen + 1))
          g).isSome
      rw [hfiles4]
      exact (hfiso g).symm
    · -- files_nodup
      show (akeys ((ainsert ((st.gen + 1, ([] : List Char)) :: (st.gen + 2, []) :: st.files)
          (st.gen + 1) (encodeFile recs)).filter (fun p => ¬ p.1 < st.gen + 1))).Nodup
      rw [hfiles4]
      simp [akeys]
    · -- gens_le
      intro p hp
      show p.1 ≤ st.gen + 2
      have : p ∈ [(st.gen + 1, encodeFile recs), (st.gen + 2, ([] : List Char))] := by
        rw [← hfiles4]
        exact hp
      rcases List.mem_cons.1 this with hh | hh
      · rw [hh]
        omega
      · simp only [List.mem_singleton] at hh
        rw [hh]
    · -- active_file
      show (alookup ((ainsert ((st.gen + 1, ([] : List Char)) :: (st.gen + 2, []) :: st.files)
          (st.gen + 1) (encodeFile recs)).filter (fun p => ¬ p.1 < st.gen + 1))
          (st.gen + 2)).isSome
      rw [hfiles4]
      exact (hfiso _).2 (Or.inr rfl)
    · -- index_nodup
      show (akeys idx').Nodup
      rw [hkeys]
      exact h.index_nodup
    · -- points
      intro k
      show (match alookup idx' k, alookup spec k with
        | none, none => True
        | some m, some v =>
            readLine ((alookup ((ainsert ((st.gen + 1, ([] : List Char)) :: (st.gen + 2, []) ::
              st.files) (st.gen + 1) (encodeFile recs)).filter (fun p => ¬ p.1 < st.gen + 1))
              m.gen).getD []) m.pos = encodeCmd (.Set k v) ++ ['\n']
        | _, _ => False)
      cases hidxk : alookup idx' k with
      | none =>
        have hnmem : k ∉ akeys idx' := by
          intro hmem
          have := (alookup_isSome_iff_mem_akeys idx' k).2 hmem
          rw [hidxk] at this
          simp at this
        rw [hkeys] at hnmem
        have hspec_none : alookup spec k = none := by
          cases hsk : alookup spec k with
          | none => rfl
          | some v => exact absurd ((hspec_keys k).1 (by simp [hsk])) hnmem
        rw [hspec_none]
        trivial
      | some m' =>
        obtain ⟨hgen', hread'⟩ := hpoint [] k m' hidxk
        have hmem : k ∈ akeys st.index := by
          rw [← hkeys]
          exact (alookup_isSome_iff_mem_akeys idx' k).1 (by simp [hidxk])
        have hsome := (hspec_keys k).2 hmem
        rw [Option.isSome_iff_exists] at hsome
        obtain ⟨v, hv⟩ := hsome
        rw [hv]
        show readLine ((alookup ((ainsert ((st.gen + 1, ([] : List Char)) :: (st.gen + 2, []) ::
            st.files) (st.gen + 1) (encodeFile recs)).filter (fun p => ¬ p.1 < st.gen + 1))
            m'.gen).getD []) m'.pos = encodeCmd (.Set k v) ++ ['\n']
        rw [hfiles4, hgen']
        rw [show alookup [(st.gen + 1, encodeFile recs), (st.gen + 2, ([] : List Char))]
            (st.gen + 1) = some (encodeFile recs) by simp [alookup]]
        simp only [Option.getD_some]
        have : encodeCmd (KvsCommand.Set k ((alookup spec k).getD "")) =
            encodeCmd (KvsCommand.Set k v) := by
          rw [hv]
          rfl
        rw [← this]
        have hread2 := hread'
        rw [List.nil_append, List.append_nil] at hread2
        exact hread2
    · -- segs
      refine ⟨[(st.gen + 1, recs), (st.gen + 2, [])], ?_, ?_⟩
      · show ((ainsert ((st.gen + 1, ([] : List Char)) :: (st.gen + 2, []) :: st.files)
            (st.gen + 1) (encodeFile recs)).filter (fun p => ¬ p.1 < st.gen + 1)) = _
        rw [hfiles4]
        rfl
      · intro k
        have hsort2 : sortGens (akeys [(st.gen + 1, recs), (st.gen + 2,
            ([] : List KvsCommand))]) = [st.gen + 1, st.gen + 2] := by
          show sortGens [st.gen + 1, st.gen + 2] = _
          show insertSorted (st.gen + 1) (insertSorted (st.gen + 2) []) = _
          rw [show insertSorted (st.gen + 2) [] = [st.gen + 2] from rfl]
          show (if st.gen + 1 ≤ st.gen + 2 then _ else _) = _
          rw [if_pos (by omega)]
        show alookup (semSegs [(st.gen + 1, recs), (st.gen + 2, [])]) k = alookup spec k
        rw [semSegs, hsort2]
        simp only [List.foldl_cons, List.foldl_nil]
        rw [show alookup [(st.gen + 1, recs), (st.gen + 2, ([] : List KvsCommand))]
            (st.gen + 1) = some recs by simp [alookup]]
        rw [show alookup [(st.gen + 1, recs), (st.gen + 2, ([] : List KvsCommand))]
            (st.gen + 2) = some [] by simp [alookup, show ¬st.gen + 1 = st.gen + 2 by omega]]
        simp only [Option.getD_some]
        rw [show semFile [] (semFile recs []) = semFile recs [] from rfl]
        rw [hrecs]
        rw [semFile_map_set (fun k0 => (alookup spec k0).getD "") st.index [] k]
        by_cases hmem : k ∈ akeys st.index
        · rw [if_pos hmem]
          have hsome := (hspec_keys k).2 hmem
          rw [Option.isSome_iff_exists] at hsome
          obtain ⟨v, hv⟩ := hsome
          rw [hv]
          rfl
        · rw [if_neg hmem]
          cases hsk : alookup spec k with
          | none => simp [alookup]
          | some v => exact absurd ((hspec_keys k).1 (by simp [hsk])) hmem

/-! ### The public write operations preserve the invariant -/

theorem set_eq (st : KvStore) (k v : String) : set st k v =
    (if COMPACTION_THRESHOLD < ({ log_cmd st (encodeCmd (.Set k v)) with
        index := ainsert st.index k ⟨st.gen, st.cursor⟩ } : KvStore).cursor
     then compact { log_cmd st (encodeCmd (.Set k v)) with
        index := ainsert st.index k ⟨st.gen, st.cursor⟩ }
     else .ok () { log_cmd st (encodeCmd (.Set k v)) with
        index := ainsert st.index k ⟨st.gen, st.cursor⟩ }) := rfl

theorem remove_eq (st : KvStore) (k : String) : remove st k =
    (if (alookup st.index k).isSome then
      (if COMPACTION_THRESHOLD < ({ log_cmd st (encodeCmd (.Remove k)) with
          index := aerase st.index k } : KvStore).cursor
       then compact { log_cmd st (encodeCmd (.Remove k)) with index := aerase st.index k }
       else .ok () { log_cmd st (encodeCmd (.Remove k)) with index := aerase st.index k })
     else .err .KeyNotFound st) := rfl

/-- `set` always succeeds under the invariant and binds the key. -/
theorem set_step {st : KvStore} {spec : List (String × String)} (h : Inv st spec)
    (k v : String) : ∃ st', set st k v = .ok () st' ∧ Inv st' (ainsert spec k v) := by
  have h2 := inv_append_record h (.Set k v) (ainsert st.index k ⟨st.gen, st.cursor⟩)
    (ainsert spec k v) rfl rfl
  rw [set_eq]
  by_cases hthr : COMPACTION_THRESHOLD < ({ log_cmd st (encodeCmd (.Set k v)) with
      index := ainsert st.index k ⟨st.gen, st.cursor⟩ } : KvStore).cursor
  · obtain ⟨st', hc, hinv, _⟩ := inv_compact h2
    exact ⟨st', by rw [if_pos hthr]; exact hc, hinv⟩
  · exact ⟨_, by rw [if_neg hthr], h2⟩

/-- `remove` of a bound key always succeeds under the invariant and unbinds
it. -/
theorem remove_step_present {st : KvStore} {spec : List (String × String)} (h : Inv st spec)
    (k : String) (hk : (alookup st.index k).isSome) :
    ∃ st', remove st k = .ok () st' ∧ Inv st' (aerase spec k) := by
  have h2 := inv_append_record h (.Remove k) (aerase st.index k) (aerase spec k) rfl rfl
  rw [remove_eq, if_pos hk]
  by_cases hthr : COMPACTION_THRESHOLD < ({ log_cmd st (encodeCmd (.Remove k)) with
      index := aerase st.index k } : KvStore).cursor
  · obtain ⟨st', hc, hinv, _⟩ := inv_compact h2
    exact ⟨st', by rw [if_pos hthr]; exact hc, hinv⟩
  · exact ⟨_, by rw [if_neg hthr], h2⟩

/-- `remove` of an unbound key fails with `KeyNotFound` and returns the
store untouched. -/
theorem remove_step_absent (st : KvStore) (k : String)
    (hk : alookup st.index k = none) : remove st k = .err .KeyNotFound st := by
  rw [remove_eq, if_neg (by simp [hk])]

/-- Running any operation sequence from an invariant-satisfying store never
panics and preserves the invariant against the folded reference mapping. -/
theorem runOps_inv : ∀ (ops : List Op) (st : KvStore) (spec : List (String × String)),
    Inv st spec → ∀ st', runOps st ops = .ok () st' →
    Inv st' (ops.foldl specApply spec) := by
  intro ops
  induction ops with
  | nil =>
    intro st spec h st' hrun
    rw [show runOps st [] = .ok () st from rfl] at hrun
    injection hrun with _ hst
    rw [← hst]
    exact h
  | cons op ops ih =>
    intro st spec h st' hrun
    rw [show (op :: ops).foldl specApply spec = ops.foldl specApply (specApply spec op) from
      rfl]
    cases op with
    | set k v =>
      obtain ⟨st1, hset, hinv1⟩ := set_step h k v
      rw [show runOps st (.set k v :: ops) = (match runOp st (.set k v) with
        | .ok _ st' => runOps st' ops
        | .err _ st' => runOps st' ops
        | .panic => .panic) from rfl] at hrun
      rw [show runOp st (.set k v) = set st k v from rfl, hset] at hrun
      exact ih st1 _ hinv1 st' hrun
    | remove k =>
      cases hk : alookup st.index k with
      | some m =>
        obtain ⟨st1, hrem, hinv1⟩ := remove_step_present h k (by simp [hk])
        rw [show runOps st (.remove k :: ops) = (match runOp st (.remove k) with
          | .ok _ st' => runOps st' ops
          | .err _ st' => runOps st' ops
          | .panic => .panic) from rfl] at hrun
        rw [show runOp st (.remove k) = remove st k from rfl, hrem] at hrun
        exact ih st1 _ hinv1 st' hrun
      | none =>
        have hinv1 : Inv st (aerase spec k) := by
          refine inv_congr h ?_
          intro k'
          rw [alookup_aerase]
          by_cases hkk : k = k'
          · subst hkk
            rw [if_pos rfl, pointsTo_none h.points hk]
          · rw [if_neg hkk]
        rw [show runOps st (.remove k :: ops) = (match runOp st (.remove k) with
          | .ok _ st' => runOps st' ops
          | .err _ st' => runOps st' ops
          | .panic => .panic) from rfl] at hrun
        rw [show runOp st (.remove k) = remove st k from rfl,
          remove_step_absent st k hk] at hrun
        exact ih st _ hinv1 st' hrun
    | compact =>
      obtain ⟨st1, hc, hinv1, _⟩ := inv_compact h
      rw [show runOps st (.compact :: ops) = (match runOp st .compact with
        | .ok _ st' => runOps st' ops
        | .err _ st' => runOps st' ops
        | .panic => .panic) from rfl] at hrun
      rw [show runOp st Op.compact = compact st from rfl, hc] at hrun
      exact ih st1 _ hinv1 st' hrun

/-! ### Recovery correctness -/

/-- Replaying one well-formed segment suffix: every record decodes, a `Set`
points the key at its own offset-before-record, a `Remove` unbinds it, and
the reference mapping advances by exactly those records. -/
theorem replayGo_segs (g : Nat) (files : List (Nat × List Char)) (content : List Char)
    (hg : alookup files g = some content) :
    ∀ (cmds : List KvsCommand) (fuel : Nat) (pre : List Char) (pos : Nat)
      (idx : List (String × IndexMeta)) (spec : List (String × String)),
      content = pre ++ encodeFile cmds →
      pos = pre.length →
      (encodeFile cmds).length ≤ fuel →
      PointsTo files idx spec →
      (akeys idx).Nodup →
      ∃ idx', replayGo g fuel (encodeFile cmds) pos idx = .ok idx' ∧
        PointsTo files idx' (semFile cmds spec) ∧ (akeys idx').Nodup := by
  intro cmds
  induction cmds with
  | nil =>
    intro fuel pre pos idx spec hcont hpos hfuel hpt hnd
    refine ⟨idx, ?_, hpt, hnd⟩
    cases fuel <;> rfl
  | cons c cs ih =>
    intro fuel pre pos idx spec hcont hpos hfuel hpt hnd
    have hcons : encodeFile (c :: cs) = encodeCmd c ++ '\n' :: encodeFile cs := rfl
    have hlen1 : 1 ≤ (encodeFile (c :: cs)).length := by
      rw [hcons]
      simp only [List.length_append, List.length_cons]
      omega
    cases fuel with
    | zero => omega
    | succ f =>
      have htake : takeLine (encodeFile (c :: cs)) = encodeCmd c ++ ['\n'] := by
        rw [hcons]
        exact takeLine_append_newline (newline_not_mem_encodeCmd c) _
      -- expose one replay step
      cases hE : encodeFile (c :: cs) with
      | nil =>
        rw [hE] at hlen1
        simp at hlen1
      | cons c0 rest =>
        have hstep : replayGo g (f + 1) (c0 :: rest) pos idx =
            (match decodeCmd (takeLine (c0 :: rest)) with
             | none => .error .SerdeJsonError
             | some cmd =>
               replayGo g f ((c0 :: rest).drop (takeLine (c0 :: rest)).length)
                 (pos + (takeLine (c0 :: rest)).length) (applyCmd g pos idx cmd)) := rfl
        rw [← hE] at hstep
        rw [← hE]
        rw [hstep, htake, decodeCmd_encodeCmd c]
        have hdrop : (encodeFile (c :: cs)).drop (encodeCmd c ++ ['\n']).length =
            encodeFile cs := by
          rw [show encodeFile (c :: cs) = (encodeCmd c ++ ['\n']) ++ encodeFile cs by
            rw [hcons]; simp]
          exact List.drop_left _ _
        rw [hdrop]
        have hcont' : content = (pre ++ (encodeCmd c ++ ['\n'])) ++ encodeFile cs := by
          rw [hcont, hcons]
          simp
        have hpos' : pos + (encodeCmd c ++ ['\n']).length =
            (pre ++ (encodeCmd c ++ ['\n'])).length := by
          rw [hpos]
          simp
        have hfuel' : (encodeFile cs).length ≤ f := by
          rw [hcons] at hfuel
          simp only [List.length_append, List.length_cons] at hfuel
          omega
        have hpt' : PointsTo files (applyCmd g pos idx c) (semLine spec c) := by
          cases c with
          | Set k v =>
            intro k'
            by_cases hk : k = k'
            · subst hk
              show (match alookup (ainsert idx k ⟨g, pos⟩) k, alookup (ainsert spec k v) k with
                | none, none => True
                | some m, some v' =>
                    readLine ((alookup files m.gen).getD []) m.pos =
                      encodeCmd (.Set k v') ++ ['\n']
                | _, _ => False)
              rw [alookup_ainsert_self, alookup_ainsert_self]
              show readLine ((alookup files g).getD []) pos = _
              rw [hg]
              simp only [Option.getD_some]
              rw [hcont, hcons, hpos]
              rw [show pre ++ (encodeCmd (KvsCommand.Set k v) ++ '\n' :: encodeFile cs) =
                pre ++ (encodeCmd (KvsCommand.Set k v) ++ '\n' :: encodeFile cs) from rfl]
              exact readLine_encodeFile_head pre (.Set k v) (encodeFile cs)
            · show (match alookup (ainsert idx k ⟨g, pos⟩) k',
                  alookup (ainsert spec k v) k' with
                | none, none => True
                | some m, some v' =>
                    readLine ((alookup files m.gen).getD []) m.pos =
                      encodeCmd (.Set k' v') ++ ['\n']
                | _, _ => False)
              rw [alookup_ainsert, if_neg hk, alookup_ainsert, if_neg hk]
              exact hpt k'
          | Remove k =>
            intro k'
            by_cases hk : k = k'
            · show (match alookup (aerase idx k) k', alookup (aerase spec k) k' with
                | none, none => True
                | some m, some v' =>
                    readLine ((alookup files m.gen).getD []) m.pos =
                      encodeCmd (.Set k' v') ++ ['\n']
                | _, _ => False)
              subst hk
              rw [alookup_aerase, if_pos rfl, alookup_aerase, if_pos rfl]
              trivial
            · show (match alookup (aerase idx k) k', alookup (aerase spec k) k' with
                | none, none => True
                | some m, some v' =>
                    readLine ((alookup files m.gen).getD []) m.pos =
                      encodeCmd (.Set k' v') ++ ['\n']
                | _, _ => False)
              rw [alookup_aerase, if_neg hk, alookup_aerase, if_neg hk]
              exact hpt k'
        have hnd' : (akeys (applyCmd g pos idx c)).Nodup := by
          cases c with
          | Set k v => exact akeys_ainsert_nodup _ _ _ hnd
          | Remove k => exact akeys_aerase_nodup _ _ hnd
        obtain ⟨idx', hrun, hpt2, hnd2⟩ := ih f (pre ++ (encodeCmd c ++ ['\n']))
          (pos + (encodeCmd c ++ ['\n']).length) (applyCmd g pos idx c) (semLine spec c)
          hcont' (by rw [hpos']) hfuel' hpt' hnd'
        refine ⟨idx', hrun, ?_, hnd2⟩
        show PointsTo files idx' (semFile (c :: cs) spec)
        rw [show semFile (c :: cs) spec = semFile cs (semLine spec c) from rfl]
        exact hpt2

/-- Replaying a directory of well-formed segments in any generation order:
`index` succeeds and the resulting index points exactly at the folded
reference mapping. -/
theorem buildIndex_segs (segsF : List (Nat × List KvsCommand))
    (files : List (Nat × List Char))
    (hrep : files = segsF.map (fun p => (p.1, encodeFile p.2))) :
    ∀ (L : List Nat) (idx : List (String × IndexMeta)) (spec : List (String × String)),
      PointsTo files idx spec → (akeys idx).Nodup →
      ∃ idx', buildIndex files L idx = .ok idx' ∧
        PointsTo files idx'
          (L.foldl (fun m g => semFile ((alookup segsF g).getD []) m) spec) ∧
        (akeys idx').Nodup := by
  intro L
  induction L with
  | nil =>
    intro idx spec hpt hnd
    exact ⟨idx, rfl, hpt, hnd⟩
  | cons g L ih =>
    intro idx spec hpt hnd
    have hfg : alookup files g = (alookup segsF g).map encodeFile := by
      rw [hrep]
      exact alookup_map_value encodeFile segsF g
    cases hseg : alookup segsF g with
    | none =>
      rw [hseg] at hfg
      have hstep : buildIndex files (g :: L) idx =
          (match replayFile g ((alookup files g).getD []) idx with
           | .error e => .error e
           | .ok idx' => buildIndex files L idx') := rfl
      rw [hstep, hfg]
      rw [show replayFile g ((Option.map encodeFile
        (none : Option (List KvsCommand))).getD []) idx = .ok idx from rfl]
      obtain ⟨idx', hbuild, hpt', hnd'⟩ := ih idx spec hpt hnd
      refine ⟨idx', hbuild, ?_, hnd'⟩
      rw [show (g :: L).foldl (fun m g => semFile ((alookup segsF g).getD []) m) spec =
        L.foldl (fun m g => semFile ((alookup segsF g).getD []) m)
          (semFile ((alookup segsF g).getD []) spec) from rfl, hseg]
      exact hpt'
    | some cmds =>
      rw [hseg] at hfg
      obtain ⟨idx1, hrun, hpt1, hnd1⟩ := replayGo_segs g files (encodeFile cmds) (by
          rw [hfg]; rfl)
        cmds (encodeFile cmds).length [] 0 idx spec (by simp) rfl le_rfl hpt hnd
      have hstep : buildIndex files (g :: L) idx =
          (match replayFile g ((alookup files g).getD []) idx with
           | .error e => .error e
           | .ok idx' => buildIndex files L idx') := rfl
      rw [hstep, hfg]
      rw [show ((Option.map encodeFile (some cmds)).getD []) = encodeFile cmds from rfl]
      rw [show replayFile g (encodeFile cmds) idx =
        replayGo g (encodeFile cmds).length (encodeFile cmds) 0 idx from rfl]
      rw [hrun]
      obtain ⟨idx', hbuild, hpt', hnd'⟩ := ih idx1 (semFile cmds spec) hpt1 hnd1
      refine ⟨idx', hbuild, ?_, hnd'⟩
      rw [show (g :: L).foldl (fun m g => semFile ((alookup segsF g).getD []) m) spec =
        L.foldl (fun m g => semFile ((alookup segsF g).getD []) m)
          (semFile ((alookup segsF g).getD []) spec) from rfl, hseg]
      exact hpt'

theorem buildReaders_isSome :
    ∀ (gens : List Nat) (rs : List (Nat × Nat)) (x : Nat),
      (alookup (gens.foldl (fun rs g => ainsert rs g 0) rs) x).isSome ↔
        x ∈ gens ∨ (alookup rs x).isSome := by
  intro gens
  induction gens with
  | nil => intro rs x; simp
  | cons g gens ih =>
    intro rs x
    rw [show (g :: gens).foldl (fun rs g => ainsert rs g 0) rs =
      gens.foldl (fun rs g => ainsert rs g 0) (ainsert rs g 0) from rfl]
    rw [ih, alookup_ainsert_isSome]
    constructor
    · rintro (hx | hx | hx)
      · exact Or.inl (List.mem_cons_of_mem _ hx)
      · exact Or.inl (hx ▸ List.mem_cons_self _ _)
      · exact Or.inr hx
    · rintro (hx | hx)
      · rcases List.mem_cons.1 hx with hx | hx
        · exact Or.inr (Or.inl hx)
        · exact Or.inl hx
      · exact Or.inr (Or.inr hx)

theorem sorted_le_getLast {L : List Nat} (hs : L.Sorted (· ≤ ·)) {x : Nat} (hx : x ∈ L)
    (hne : L ≠ []) : x ≤ L.getLast hne := by
  have hL : L = L.dropLast ++ [L.getLast hne] := (List.dropLast_append_getLast hne).symm
  rcases List.mem_append.1 (hL ▸ hx) with hin | hin
  · have := List.pairwise_append.1 (hL ▸ hs)
    exact this.2.2 x hin _ (by simp)
  · simp only [List.mem_singleton] at hin
    omega

/-- `get` returns exactly the mapping's binding whenever the index points
correctly and every on-disk segment has an open handle. -/
theorem get_val_of_points {st : KvStore} {spec : List (String × String)}
    (hpt : PointsTo st.files st.index spec)
    (hrd : ∀ g, (alookup st.files g).isSome → (alookup st.readers g).isSome)
    (key : String) : (get st key).val = some (alookup spec key) := by
  cases hidx : alookup st.index key with
  | none =>
    rw [pointsTo_none hpt hidx]
    simp [get, hidx, OpResult.val]
  | some m =>
    obtain ⟨v, hspec, hread⟩ := pointsTo_some hpt hidx
    have hfile : (alookup st.files m.gen).isSome := file_isSome_of_points hread
    have hreader := hrd m.gen hfile
    rw [hspec]
    rw [Option.isSome_iff_exists] at hreader
    obtain ⟨pos, hr⟩ := hreader
    have hdec : decodeCmd (readLine (fileContent st m.gen) m.pos) = some (.Set key v) := by
      rw [show fileContent st m.gen = (alookup st.files m.gen).getD [] from rfl, hread]
      exact decodeCmd_encodeCmd (.Set key v)
    simp only [get, hidx, hr, hdec, OpResult.val]

/-- `open` on a directory of well-formed segments: it succeeds, and the
store it returns answers every `get` with the last-writer-wins mapping of
the directory replayed in ascending generation order; every index entry
points at an intact `Set` record holding that value. -/
theorem openStore_segs (segsF : List (Nat × List KvsCommand))
    (files : List (Nat × List Char))
    (hrep : files = segsF.map (fun p => (p.1, encodeFile p.2)))
    (hnd : (akeys files).Nodup) :
    ∃ st', openStore files = .ok st' ∧
      (∀ k, (get st' k).val = some (alookup (semSegs segsF) k)) ∧
      (∀ k m', alookup st'.index k = some m' → ∃ v, alookup (semSegs segsF) k = some v ∧
        readLine (fileContent st' m'.gen) m'.pos = encodeCmd (.Set k v) ++ ['\n']) := by
  have hkeys_eq : akeys files = akeys segsF := by
    rw [hrep]
    exact akeys_map_value _ _
  -- the new active generation is fresh
  have hgen_fresh : (match (sortGens (akeys files)).getLast? with
      | some last => last + 1
      | none => 0) ∉ akeys files := by
    cases hlast : (sortGens (akeys files)).getLast? with
    | none =>
      have : sortGens (akeys files) = [] := List.getLast?_eq_none_iff.1 hlast
      have hperm := sortGens_perm (akeys files)
      rw [this] at hperm
      intro hmem
      rw [← hperm.mem_iff] at hmem
      simp at hmem
    | some last =>
      intro hmem
      have hne : sortGens (akeys files) ≠ [] := by
        intro hnil
        rw [hnil] at hlast
        simp at hlast
      have hmem' : last + 1 ∈ sortGens (akeys files) :=
        (sortGens_perm (akeys files)).mem_iff.2 hmem
      have hle := sorted_le_getLast (sortGens_sorted (akeys files)) hmem' hne
      rw [List.getLast?_eq_getLast _ hne] at hlast
      injection hlast with hlast
      omega
  set gen := (match (sortGens (akeys files)).getLast? with
      | some last => last + 1
      | none => 0) with hgen
  have hfiles1 : ainsert files gen [] = (gen, []) :: files := by
    rw [ainsert, aerase_eq_self_of_not_mem hgen_fresh]
  have hrep1 : (gen, ([] : List Char)) :: files =
      ((gen, ([] : List KvsCommand)) :: segsF).map (fun p => (p.1, encodeFile p.2)) := by
    rw [hrep]
    rfl
  have hsort_mem : ∀ g ∈ sortGens (akeys files), g ≠ gen := by
    intro g hgmem
    have : g ∈ akeys files := (sortGens_perm (akeys files)).mem_iff.1 hgmem
    intro hcontra
    rw [hcontra] at this
    exact hgen_fresh this
  obtain ⟨idx', hbuild, hpt, hnd'⟩ := buildIndex_segs ((gen, []) :: segsF)
    ((gen, []) :: files) hrep1 (sortGens (akeys files)) [] []
    (fun k => by simp [alookup]) (by simp [akeys])
  have hfold_eq : (sortGens (akeys files)).foldl
      (fun m g => semFile ((alookup ((gen, ([] : List KvsCommand)) :: segsF) g).getD []) m) [] =
      semSegs segsF := by
    rw [semSegs, ← hkeys_eq]
    refine foldl_semFile_congr _ ?_ []
    intro x hx
    rw [show alookup ((gen, ([] : List KvsCommand)) :: segsF) x =
      (if gen = x then some [] else alookup segsF x) from rfl]
    rw [if_neg (fun hh => hsort_mem x hx hh.symm)]
  rw [hfold_eq] at hpt
  refine ⟨{ index := idx'
            readers := ainsert (buildReaders (akeys files)) gen 0
            files := ainsert files gen []
            gen := gen
            cursor := 0 }, ?_, ?_, ?_⟩
  · show openStore files = _
    simp only [openStore]
    rw [← hgen]
    rw [show ainsert files gen [] = (gen, []) :: files from hfiles1]
    rw [hbuild]
  · intro k
    apply get_val_of_points
    · show PointsTo (ainsert files gen []) idx' (semSegs segsF)
      rw [hfiles1]
      exact hpt
    · intro g hg
      show (alookup (ainsert (buildReaders (akeys files)) gen 0) g).isSome
      rw [alookup_ainsert_isSome]
      by_cases hgg : g = gen
      · exact Or.inl hgg
      · refine Or.inr ?_
        rw [show buildReaders (akeys files) =
          (akeys files).foldl (fun rs g => ainsert rs g 0) [] from rfl]
        rw [buildReaders_isSome]
        refine Or.inl ?_
        have hg2 : (alookup ((gen, ([] : List Char)) :: files) g).isSome := by
          rw [← hfiles1]
          exact hg
        rw [show alookup ((gen, ([] : List Char)) :: files) g =
          (if gen = g then some [] else alookup files g) from rfl] at hg2
        rw [if_neg (fun hh => hgg hh.symm)] at hg2
        exact (alookup_isSome_iff_mem_akeys _ _).1 hg2
  · intro k m' hm'
    have hpt2 := hpt k
    have hm2 : alookup idx' k = some m' := hm'
    rw [hm2] at hpt2
    cases hs : alookup (semSegs segsF) k with
    | none => rw [hs] at hpt2; exact absurd hpt2 (by simp)
    | some v =>
      rw [hs] at hpt2
      refine ⟨v, rfl, ?_⟩
      show readLine ((alookup (ainsert files gen []) m'.gen).getD []) m'.pos = _
      rw [hfiles1]
      exact hpt2

/-! ### Segment discovery: filename parsing (`gen_list`, lines 267-281)

`gen_list` keeps directory entries whose `Path::extension()` is `log`,
strips every trailing `.log` ocurrence with `trim_end_matches`, and parses
the remainder with `str::parse::<u64>`. -/

/-- Split a file name at its last dot: `(before, after)`. -/
def lastDotSplit : List Char → Option (List Char × List Char)
  | [] => none
  | c :: rest =>
    match lastDotSplit rest with
    | some (b, a) => some (c :: b, a)
    | none => if c = '.' then some ([], rest) else none

/-- `Path::extension()`: the part after the last dot, unless the only dot
is the leading one (hidden files have no extension). -/
def pathExt (s : List Char) : Option (List Char) :=
  match lastDotSplit s with
  | some (b, a) => if b = [] then none else some a
  | none => none

/-- `trim_end_matches(".log")` on a reversed name: strip every leading
`gol.`. -/
def stripRevLog : List Char → List Char
  | 'g' :: 'o' :: 'l' :: '.' :: rest => stripRevLog rest
  | l => l

/-- `str::trim_end_matches(".log")`: removes every trailing `.log`. -/
def trimEndLog (s : List Char) : List Char :=
  (stripRevLog s.reverse).reverse

/-- Accumulate decimal digits; `none` on a non-digit. -/
def parseDigits : List Char → Nat → Option Nat
  | [], acc => some acc
  | c :: rest, acc =>
    if 48 ≤ c.toNat ∧ c.toNat ≤ 57 then parseDigits rest (acc * 10 + (c.toNat - 48))
    else none

/-- `str::parse::<u64>`: an optional leading `+`, then decimal digits, with
the u64 range check. -/
def rustParseU64 (s : List Char) : Option Nat :=
  let t := match s with
    | '+' :: rest => rest
    | _ => s
  match t with
  | [] => none
  | _ :: _ =>
    match parseDigits t 0 with
    | some n => if n < 2 ^ 64 then some n else none
    | none => none

/-- The generation a directory entry contributes, if any: extension must be
`log`, and the name with all trailing `.log`s stripped must parse as u64. -/
def genOfName (name : List Char) : Option Nat :=
  match pathExt name with
  | some e => if e = ['l', 'o', 'g'] then rustParseU64 (trimEndLog name) else none
  | none => none

/-- `gen_list` (`src/lib.rs` lines 267-281) over the file names of a
directory listing. -/
def gen_list (names : List String) : List Nat :=
  names.filterMap (fun n => genOfName n.data)

/-- Decimal printing of a generation, as `format!` does for `u64`
(`log_path`, line 264). -/
def natToDigitsGo : Nat → Nat → List Char → List Char
  | 0, _, acc => acc
  | fuel + 1, n, acc =>
    if n < 10 then Char.ofNat (48 + n % 10) :: acc
    else natToDigitsGo fuel (n / 10) (Char.ofNat (48 + n % 10) :: acc)

/-- Decimal representation of a natural number. -/
def natRepr (n : Nat) : List Char := natToDigitsGo (n + 1) n []

example : natRepr 1203 = ['1', '2', '0', '3'] := by decide

example : genOfName "1.log.log".data = some 1 := by decide

example : genOfName "0017.log".data = some 17 := by decide

example : genOfName "a7.log".data = none := by decide

example : genOfName ".log".data = none := by decide

theorem char_toNat_ofNat {k : Nat} (h : k < 55296) : (Char.ofNat k).toNat = k := by
  unfold Char.ofNat
  rw [dif_pos (Or.inl h)]
  rfl

theorem natToDigitsGo_eq : ∀ (n fuel : Nat) (acc : List Char), n < fuel →
    natToDigitsGo fuel n acc = natRepr n ++ acc := by
  intro n
  induction n using Nat.strong_induction_on with
  | _ n ih =>
    intro fuel acc hfuel
    cases fuel with
    | zero => omega
    | succ f =>
      by_cases h10 : n < 10
      · rw [show natToDigitsGo (f + 1) n acc = Char.ofNat (48 + n % 10) :: acc from by
          simp [natToDigitsGo, h10]]
        rw [show natRepr n = [Char.ofNat (48 + n % 10)] from by
          simp [natRepr, natToDigitsGo, h10]]
        rfl
      · have hdiv : n / 10 < n := Nat.div_lt_self (by omega) (by omega)
        have hrec : natToDigitsGo (f + 1) n acc =
            natToDigitsGo f (n / 10) (Char.ofNat (48 + n % 10) :: acc) := by
          simp [natToDigitsGo, h10]
        have hnr : natRepr n = natRepr (n / 10) ++ [Char.ofNat (48 + n % 10)] := by
          rw [natRepr]
          rw [show natToDigitsGo (n + 1) n [] =
            natToDigitsGo n (n / 10) [Char.ofNat (48 + n % 10)] from by
            simp [natToDigitsGo, h10]]
          exact ih (n / 10) hdiv n _ (by omega)
        rw [hrec, ih (n / 10) hdiv f _ (by omega), hnr]
        simp

theorem natRepr_rec {n : Nat} (h : 10 ≤ n) :
    natRepr n = natRepr (n / 10) ++ [Char.ofNat (48 + n % 10)] := by
  rw [natRepr]
  rw [show natToDigitsGo (n + 1) n [] =
    natToDigitsGo n (n / 10) [Char.ofNat (48 + n % 10)] from by
    simp [natToDigitsGo, show ¬n < 10 by omega]]
  rw [natToDigitsGo_eq (n / 10) n _ (by
    have := Nat.div_lt_self (show 0 < n by omega) (show 1 < 10 by omega)
    omega)]

theorem natRepr_small {n : Nat} (h : n < 10) :
    natRepr n = [Char.ofNat (48 + n % 10)] := by
  simp [natRepr, natToDigitsGo, h]

theorem natRepr_digits : ∀ n : Nat, ∀ c ∈ natRepr n, 48 ≤ c.toNat ∧ c.toNat ≤ 57 := by
  intro n
  induction n using Nat.strong_induction_on with
  | _ n ih =>
    intro c hc
    by_cases h10 : n < 10
    · rw [natRepr_small h10] at hc
      simp only [List.mem_singleton] at hc
      subst hc
      rw [char_toNat_ofNat (by omega)]
      omega
    · rw [natRepr_rec (by omega)] at hc
      rcases List.mem_append.1 hc with hc | hc
      · exact ih (n / 10) (Nat.div_lt_self (by omega) (by omega)) c hc
      · simp only [List.mem_singleton] at hc
        subst hc
        rw [char_toNat_ofNat (by omega)]
        omega

theorem natRepr_ne_nil (n : Nat) : natRepr n ≠ [] := by
  by_cases h10 : n < 10
  · rw [natRepr_small h10]
    simp
  · rw [natRepr_rec (by omega)]
    simp

theorem parseDigits_append {xs : List Char} {acc v : Nat}
    (h : parseDigits xs acc = some v) (ys : List Char) :
    parseDigits (xs ++ ys) acc = parseDigits ys v := by
  induction xs generalizing acc with
  | nil =>
    simp only [parseDigits] at h
    injection h with h
    subst h
    rfl
  | cons c rest ihx =>
    by_cases hd : 48 ≤ c.toNat ∧ c.toNat ≤ 57
    · simp only [parseDigits, if_pos hd] at h
      rw [show (c :: rest) ++ ys = c :: (rest ++ ys) from rfl]
      simp only [parseDigits, if_pos hd]
      exact ihx h
    · simp [parseDigits, if_neg hd] at h

theorem parseDigits_natRepr : ∀ (n acc : Nat),
    parseDigits (natRepr n) acc = some (acc * 10 ^ (natRepr n).length + n) := by
  intro n
  induction n using Nat.strong_induction_on with
  | _ n ih =>
    intro acc
    by_cases h10 : n < 10
    · rw [natRepr_small h10]
      have hdig : 48 ≤ (Char.ofNat (48 + n % 10)).toNat ∧
          (Char.ofNat (48 + n % 10)).toNat ≤ 57 := by
        rw [char_toNat_ofNat (by omega)]
        omega
      simp only [parseDigits, if_pos hdig]
      rw [char_toNat_ofNat (by omega)]
      simp only [List.length_singleton]
      rw [show acc * 10 + (48 + n % 10 - 48) = acc * 10 ^ 1 + n by
        rw [pow_one]
        omega]
    · rw [natRepr_rec (by omega)]
      rw [parseDigits_append (ih (n / 10) (Nat.div_lt_self (by omega) (by omega)) acc)]
      have hdig : 48 ≤ (Char.ofNat (48 + n % 10)).toNat ∧
          (Char.ofNat (48 + n % 10)).toNat ≤ 57 := by
        rw [char_toNat_ofNat (by omega)]
        omega
      simp only [parseDigits, if_pos hdig]
      rw [char_toNat_ofNat (by omega)]
      simp only [List.length_append, List.length_singleton]
      congr 1
      have hsplit : (acc * 10 ^ (natRepr (n / 10)).length + n / 10) * 10 + (48 + n % 10 - 48) =
          acc * (10 ^ (natRepr (n / 10)).length * 10) + (n / 10 * 10 + n % 10) := by
        ring_nf
        omega
      rw [hsplit]
      rw [show 10 ^ (natRepr (n / 10)).length * 10 = 10 ^ ((natRepr (n / 10)).length + 1) from
        (pow_succ 10 _).symm]
      congr 1
      omega

theorem rustParseU64_head_digit {c : Char} {cs : List Char} (h : ¬c = '+') :
    rustParseU64 (c :: cs) =
      (match parseDigits (c :: cs) 0 with
       | some n => if n < 2 ^ 64 then some n else none
       | none => none) := by
  unfold rustParseU64
  split
  · next rest heq =>
    injection heq with h1 _
    exact absurd h1 h
  · rfl

theorem rustParseU64_natRepr {n : Nat} (h : n < 2 ^ 64) :
    rustParseU64 (natRepr n) = some n := by
  cases hnr : natRepr n with
  | nil => exact absurd hnr (natRepr_ne_nil n)
  | cons c cs =>
    have hcd : 48 ≤ c.toNat ∧ c.toNat ≤ 57 :=
      natRepr_digits n c (hnr ▸ List.mem_cons_self c cs)
    have hcne : ¬c = '+' := by
      intro hc
      subst hc
      have : ('+' : Char).toNat = 43 := rfl
      omega
    have hpd : parseDigits (c :: cs) 0 = some n := by
      rw [← hnr, parseDigits_natRepr]
      simp only [Nat.zero_mul, Nat.zero_add]
    rw [rustParseU64_head_digit hcne, hpd]
    exact if_pos h

theorem dot_not_mem_natRepr (n : Nat) : '.' ∉ natRepr n := by
  intro hmem
  have := natRepr_digits n _ hmem
  have hdot : ('.' : Char).toNat = 46 := rfl
  omega

theorem lastDotSplit_of_not_mem {l : List Char} (h : '.' ∉ l) : lastDotSplit l = none := by
  induction l with
  | nil => rfl
  | cons c rest ih =>
    simp only [List.mem_cons, not_or] at h
    have hc : ¬c = '.' := fun hh => h.1 hh.symm
    simp [lastDotSplit, ih h.2, hc]

theorem lastDotSplit_append {xs ys : List Char} (h : '.' ∉ ys) :
    lastDotSplit (xs ++ '.' :: ys) = some (xs, ys) := by
  induction xs with
  | nil => simp [lastDotSplit, lastDotSplit_of_not_mem h]
  | cons c xs ih => simp [lastDotSplit, ih]

theorem stripRevLog_cons_ne {c : Char} {cs : List Char} (h : ¬c = 'g') :
    stripRevLog (c :: cs) = c :: cs := by
  unfold stripRevLog
  split
  · next heq =>
    injection heq with h1 _
    exact absurd h1 h
  · rfl

theorem trimEndLog_canonical (g : Nat) :
    trimEndLog (natRepr g ++ '.' :: 'l' :: 'o' :: 'g' :: []) = natRepr g := by
  unfold trimEndLog
  rw [List.reverse_append]
  rw [show ('.' :: 'l' :: 'o' :: 'g' :: []).reverse = 'g' :: 'o' :: 'l' :: '.' :: [] by decide]
  rw [show ('g' :: 'o' :: 'l' :: '.' :: []) ++ (natRepr g).reverse =
    'g' :: 'o' :: 'l' :: '.' :: (natRepr g).reverse from rfl]
  rw [show stripRevLog ('g' :: 'o' :: 'l' :: '.' :: (natRepr g).reverse) =
    stripRevLog ((natRepr g).reverse) from rfl]
  have hstrip : stripRevLog ((natRepr g).reverse) = (natRepr g).reverse := by
    cases hrev : (natRepr g).reverse with
    | nil => rfl
    | cons c cs =>
      have hcmem : c ∈ natRepr g := by
        rw [← List.mem_reverse, hrev]
        exact List.mem_cons_self c cs
      have := natRepr_digits g c hcmem
      refine stripRevLog_cons_ne ?_
      intro hc
      subst hc
      have hg : ('g' : Char).toNat = 103 := rfl
      omega
  rw [hstrip, List.reverse_reverse]

theorem genOfName_canonical {g : Nat} (h : g < 2 ^ 64) :
    genOfName (natRepr g ++ '.' :: 'l' :: 'o' :: 'g' :: []) = some g := by
  unfold genOfName pathExt
  rw [lastDotSplit_append (by decide)]
  rw [show (match (some (natRepr g, ['l', 'o', 'g']) :
      Option (List Char × List Char)) with
    | some (b, a) => if b = [] then none else some a
    | none => none) = if natRepr g = [] then none else some ['l', 'o', 'g'] from rfl]
  rw [if_neg (natRepr_ne_nil g)]
  show (if (['l', 'o', 'g'] : List Char) = ['l', 'o', 'g'] then
    rustParseU64 (trimEndLog (natRepr g ++ '.' :: 'l' :: 'o' :: 'g' :: [])) else none) = some g
  rw [if_pos rfl, trimEndLog_canonical, rustParseU64_natRepr h]

/-! ### Remaining glue lemmas -/

/-- The replayed mapping of a directory does not depend on the order the
listing returned its segments in: `semSegs` sorts the generations itself. -/
theorem semSegs_perm {segs segs' : List (Nat × List KvsCommand)}
    (hp : segs.Perm segs') (hnd : (akeys segs).Nodup) :
    semSegs segs = semSegs segs' := by
  have hak : (akeys segs).Perm (akeys segs') := hp.map Prod.fst
  rw [semSegs, semSegs, sortGens_eq_of_perm hak]
  exact foldl_semFile_congr _ (fun x _ => alookup_perm hp hnd x) []

/-- `get`'s observable result depends only on the index, the directory, and
which generations have an open handle — never on a handle's seek position
(every read seeks first). -/
theorem get_val_ext {st st' : KvStore} (hidx : st'.index = st.index)
    (hf : st'.files = st.files)
    (hrd : ∀ g, (alookup st'.readers g).isSome ↔ (alookup st.readers g).isSome)
    (k : String) : (get st' k).val = (get st k).val := by
  have hfc : ∀ g, fileContent st' g = fileContent st g := by
    intro g
    rw [fileContent, fileContent, hf]
  simp only [get, hidx]
  cases hi : alookup st.index k with
  | none => rfl
  | some m =>
    cases hr : alookup st.readers m.gen with
    | none =>
      have h2 : alookup st'.readers m.gen = none := by
        cases hx : alookup st'.readers m.gen with
        | none => rfl
        | some q =>
          have := (hrd m.gen).1 (by rw [hx]; rfl)
          rw [hr] at this
          exact absurd this (by simp)
      simp only [hr, h2]
    | some p =>
      have h2 : (alookup st'.readers m.gen).isSome := (hrd m.gen).2 (by rw [hr]; rfl)
      obtain ⟨p', hp'⟩ := Option.isSome_iff_exists.1 h2
      simp only [hr, hp', hfc]
      cases hd : decodeCmd (readLine (fileContent st m.gen) m.pos) with
      | none => rfl
      | some c => cases c <;> rfl

/-! ### The path check at the head of `open` (`src/lib.rs` lines 74-81)

`open` runs `create_dir_all(&path)?` (line 77) BEFORE testing
`path.is_dir()` (line 79).  `std::fs::create_dir_all` fails when the target
exists and is not a directory, so for such a path the `?` on line 77
converts the `std::io::Error` into `KvsError::IoError` (the `From` impl at
lines 27-31) and returns before the `is_dir` test; when the target is a
directory, or absent (in which case the call creates it), `create_dir_all`
succeeds and `is_dir()` then holds, so the check passes.  The model below
maps the state of the path's target to the error this prologue stops `open`
with, if any. -/

/-- What `open`'s path resolves to before the call: an existing
non-directory, an existing directory, or nothing. -/
inductive FsNode where
  | file
  | dir
deriving DecidableEq, Repr

/-- The error the prologue of `KvStore::open` (lines 74-81) returns for a
path whose target is `t`, or `none` when control reaches the rest of
`open`. -/
def openPathCheck : Option FsNode → Option KvsError
  | some .file => some .IoError
  | some .dir => none
  | none => none

/-! ### The claims -/

/-- C1: for every finite sequence of `set`/`remove`/`compact` operations run
from a freshly opened store — keys and values arbitrary strings, newlines
and quotes included — `get key` answers `Ok(Some v)` with `v` the value of
the most recent `set key v` not followed by a `remove key`, and `Ok(None)`
(not an error) when no such `set` exists or the key was last removed:
exactly the binding of the reference mapping the sequence folds up. -/
theorem claim_C1 (ops : List Op) (st' : KvStore) (key : String)
    (h : runOps freshStore ops = .ok () st') :
    (get st' key).val = some (alookup (specRun ops) key) :=
  inv_get (runOps_inv ops freshStore [] inv_freshStore st' h) key

/-- Operation sequence the C1 witness evaluates; its keys and values carry a
newline and a quote. -/
def c1Ops : List Op := [.set "a\n" "1\"", .set "b" "2", .remove "a\n"]

/-- The store `c1Ops` leaves behind. -/
def c1St : KvStore :=
  match runOps freshStore c1Ops with
  | .ok _ s => s
  | _ => freshStore

theorem claim_C1_witness :
    runOps freshStore c1Ops = .ok () c1St ∧
    (get c1St "b").val = some (alookup (specRun c1Ops) "b") ∧
    (get c1St "a\n").val = some (alookup (specRun c1Ops) "a\n") ∧
    alookup (specRun c1Ops) "b" = some "2" ∧
    alookup (specRun c1Ops) "a\n" = none :=
  ⟨rfl, claim_C1 c1Ops c1St "b" rfl, claim_C1 c1Ops c1St "a\n" rfl, rfl, rfl⟩

/-- C2: after any successful operation sequence from a fresh store, reopening
the resulting directory succeeds and yields a store that answers every `get`
exactly as the store did before closing: the logical key-to-value mapping
round-trips through the persisted segments. -/
theorem claim_C2 (ops : List Op) (st' : KvStore)
    (h : runOps freshStore ops = .ok () st') :
    ∃ st'', openStore st'.files = .ok st'' ∧
      ∀ k, (get st'' k).val = (get st' k).val := by
  have hinv := runOps_inv ops freshStore [] inv_freshStore st' h
  obtain ⟨segs, hrep, hsem⟩ := hinv.segs
  obtain ⟨st'', hopen, hget, _⟩ := openStore_segs segs st'.files hrep hinv.files_nodup
  refine ⟨st'', hopen, fun k => ?_⟩
  rw [hget k, hsem k, inv_get hinv k]

/-- Operation sequence the C2 witness persists and reopens. -/
def c2Ops : List Op := [.set "x" "1", .set "y" "2", .remove "x"]

/-- The store `c2Ops` leaves behind. -/
def c2St : KvStore :=
  match runOps freshStore c2Ops with
  | .ok _ s => s
  | _ => freshStore

theorem claim_C2_witness :
    runOps freshStore c2Ops = .ok () c2St ∧
    (∃ st'', openStore c2St.files = .ok st'' ∧
      ∀ k, (get st'' k).val = (get c2St k).val) :=
  ⟨rfl, claim_C2 c2Ops c2St rfl⟩

/-- C3: recovery replays the discovered segments in ascending generation
order and each segment front to back — a `Set` (re)points the key's entry at
`(generation, offset-before-record)`, a `Remove` drops it — so `open` answers
every `get` with the last-writer-wins mapping `semSegs`, every index entry
points at an intact `Set` record holding the answered value, and a permuted
directory listing of the same segments opens to a store with identical
answers. -/
theorem claim_C3 (segsF segsF' : List (Nat × List KvsCommand))
    (files files' : List (Nat × List Char))
    (hrep : files = segsF.map (fun p => (p.1, encodeFile p.2)))
    (hrep' : files' = segsF'.map (fun p => (p.1, encodeFile p.2)))
    (hperm : segsF.Perm segsF')
    (hnd : (akeys files).Nodup) :
    ∃ st st', openStore files = .ok st ∧ openStore files' = .ok st' ∧
      (∀ k, (get st k).val = some (alookup (semSegs segsF) k)) ∧
      (∀ k m, alookup st.index k = some m → ∃ v, alookup (semSegs segsF) k = some v ∧
        readLine (fileContent st m.gen) m.pos = encodeCmd (.Set k v) ++ ['\n']) ∧
      (∀ k, (get st' k).val = (get st k).val) := by
  have hkeys : akeys files = akeys segsF := by
    rw [hrep]
    exact akeys_map_value _ _
  have hndF : (akeys segsF).Nodup := hkeys ▸ hnd
  have hnd' : (akeys files').Nodup := by
    rw [hrep', akeys_map_value]
    exact (hperm.map Prod.fst).nodup_iff.1 hndF
  obtain ⟨st, hopen, hget, hpoint⟩ := openStore_segs segsF files hrep hnd
  obtain ⟨st', hopen', hget', _⟩ := openStore_segs segsF' files' hrep' hnd'
  have hsem : semSegs segsF' = semSegs segsF := (semSegs_perm hperm hndF).symm
  refine ⟨st, st', hopen, hopen', hget, hpoint, fun k => ?_⟩
  rw [hget' k, hsem, hget k]

/-- Segments for the C3 witness: three generations, the key `a` set, removed,
then set again. -/
def c3Segs : List (Nat × List KvsCommand) :=
  [(0, [.Set "a" "1"]), (1, [.Remove "a"]), (2, [.Set "a" "2", .Set "b" "3"])]

/-- The same segments in a shuffled directory-listing order. -/
def c3Segs2 : List (Nat × List KvsCommand) :=
  [(2, [.Set "a" "2", .Set "b" "3"]), (0, [.Set "a" "1"]), (1, [.Remove "a"])]

theorem claim_C3_witness :
    c3Segs.Perm c3Segs2 ∧
    alookup (semSegs c3Segs) "a" = some "2" ∧
    (∃ st st', openStore (c3Segs.map (fun p => (p.1, encodeFile p.2))) = .ok st ∧
      openStore (c3Segs2.map (fun p => (p.1, encodeFile p.2))) = .ok st' ∧
      (∀ k, (get st k).val = some (alookup (semSegs c3Segs) k)) ∧
      (∀ k m, alookup st.index k = some m → ∃ v, alookup (semSegs c3Segs) k = some v ∧
        readLine (fileContent st m.gen) m.pos = encodeCmd (.Set k v) ++ ['\n']) ∧
      (∀ k, (get st' k).val = (get st k).val)) :=
  ⟨by decide, rfl, claim_C3 c3Segs c3Segs2 _ _ rfl rfl (by decide) (by decide)⟩

/-- C4: from any state satisfying the reachability invariant, compaction
succeeds and afterwards the directory holds exactly the new archive
generation `gen + 1` and the new active generation `gen + 2`; every segment
below the archive is gone, no generation older than the archive remains, and
a read handle is open for precisely the two surviving generations. -/
theorem claim_C4 (st : KvStore) (spec : List (String × String)) (h : Inv st spec) :
    ∃ st', compact st = .ok () st' ∧ st'.gen = st.gen + 2 ∧
      (∃ buf, st'.files = [(st.gen + 1, buf), (st.gen + 2, [])]) ∧
      (∀ p ∈ st'.files, st.gen + 1 ≤ p.1) ∧
      (∀ g, (alookup st'.readers g).isSome ↔ (g = st.gen + 1 ∨ g = st.gen + 2)) := by
  obtain ⟨st', hc, _, hgen, _, hfiles, hrd⟩ := inv_compact h
  refine ⟨st', hc, hgen, hfiles, ?_, hrd⟩
  intro p hp
  obtain ⟨buf, hf⟩ := hfiles
  rw [hf] at hp
  rcases List.mem_cons.1 hp with rfl | hp2
  · exact Nat.le_refl _
  · rcases List.mem_singleton.1 hp2 with rfl
    exact Nat.le_succ _

theorem claim_C4_witness :
    ∃ st', compact freshStore = .ok () st' ∧ st'.gen = freshStore.gen + 2 ∧
      (∃ buf, st'.files = [(freshStore.gen + 1, buf), (freshStore.gen + 2, [])]) ∧
      (∀ p ∈ st'.files, freshStore.gen + 1 ≤ p.1) ∧
      (∀ g, (alookup st'.readers g).isSome ↔
        (g = freshStore.gen + 1 ∨ g = freshStore.gen + 2)) :=
  claim_C4 freshStore [] inv_freshStore

/-- C5 (amended): compaction from any invariant-satisfying state — compact
already or not — preserves every key's visible value, but the on-disk
segment set never stabilises: each run advances the active generation by two
and leaves exactly the files `gen + 1` and `gen + 2`, so repeated
compactions keep producing fresh generation numbers instead of converging,
refuting the claimed stable segment set. -/
theorem claim_C5 (st : KvStore) (spec : List (String × String)) (h : Inv st spec) :
    ∃ st', compact st = .ok () st' ∧
      (∀ k, (get st' k).val = (get st k).val) ∧
      st'.gen = st.gen + 2 ∧ akeys st'.files = [st.gen + 1, st.gen + 2] := by
  obtain ⟨st', hc, hinv', hgen, _, hfiles, _⟩ := inv_compact h
  obtain ⟨buf, hf⟩ := hfiles
  refine ⟨st', hc, fun k => ?_, hgen, by rw [hf]; rfl⟩
  rw [inv_get hinv' k, inv_get h k]

theorem claim_C5_witness :
    ∃ st', compact freshStore = .ok () st' ∧
      (∀ k, (get st' k).val = (get freshStore k).val) ∧
      st'.gen = freshStore.gen + 2 ∧
      akeys st'.files = [freshStore.gen + 1, freshStore.gen + 2] :=
  claim_C5 freshStore [] inv_freshStore

/-- The store one compaction of a fresh store produces. -/
def c5St1 : KvStore :=
  match compact freshStore with
  | .ok _ s => s
  | _ => freshStore

/-- The store a second compaction produces. -/
def c5St2 : KvStore :=
  match compact c5St1 with
  | .ok _ s => s
  | _ => freshStore

theorem claim_C5_counterexample :
    compact freshStore = .ok () c5St1 ∧ compact c5St1 = .ok () c5St2 ∧
    akeys c5St1.files = [1, 2] ∧ akeys c5St2.files = [3, 4] ∧
    decide (akeys c5St1.files = akeys c5St2.files) = false :=
  ⟨rfl, rfl, rfl, rfl, rfl⟩

/-- A store whose index entry for `k` points at a `Remove` record: the
internal inconsistency C6 is about. -/
def c6Store : KvStore :=
  { index := [("k", ⟨0, 0⟩)]
    readers := [(0, 0)]
    files := [(0, encodeCmd (.Remove "k") ++ ['\n'])]
    gen := 1
    cursor := 0 }

/-- C6: the spec requires `get` on an index entry naming a non-`Set` record
(or a generation with no open handle) to return a fatal error value to the
caller and never terminate the host; the code instead executes `panic!()`
(`src/lib.rs` lines 111 and 114), modelled as the `panic` outcome, which
aborts the process and returns no error value. -/
theorem claim_C6 : get c6Store "k" = OpResult.panic := rfl

/-- C7 (amended): `create_dir_all` runs before the `is_dir` test, so `open`
on a path whose target exists but is not a directory fails with `IoError`
(the `?` on line 77), and the `InvalidPath` branch of lines 79-81 is dead:
the prologue either stops with `IoError` or lets `open` proceed. -/
theorem claim_C7 (t : Option FsNode) (h : t = some FsNode.file) :
    openPathCheck t = some KvsError.IoError ∧
    (∀ t' : Option FsNode, openPathCheck t' = none ∨
      openPathCheck t' = some KvsError.IoError) := by
  subst h
  refine ⟨rfl, fun t' => ?_⟩
  rcases t' with _ | n
  · exact Or.inl rfl
  · cases n
    · exact Or.inr rfl
    · exact Or.inl rfl

theorem claim_C7_witness :
    openPathCheck (some FsNode.file) = some KvsError.IoError ∧
    (∀ t' : Option FsNode, openPathCheck t' = none ∨
      openPathCheck t' = some KvsError.IoError) :=
  claim_C7 (some FsNode.file) rfl

theorem claim_C7_counterexample :
    openPathCheck (some FsNode.file) = some KvsError.IoError ∧
    decide (openPathCheck (some FsNode.file) = some KvsError.InvalidPath) = false :=
  ⟨rfl, rfl⟩

/-- C8: `remove` of a key absent from the index fails with `KeyNotFound` and
hands back the state it was given, unchanged in every component — no record
is appended to any segment, the index is untouched, and the cursor does not
advance. -/
theorem claim_C8 (st : KvStore) (k : String) (h : alookup st.index k = none) :
    remove st k = .err KvsError.KeyNotFound st :=
  remove_step_absent st k h

theorem claim_C8_witness :
    remove freshStore "x" = .err KvsError.KeyNotFound freshStore :=
  claim_C8 freshStore "x" rfl

/-- C9 (amended): discovery accepts every canonically named segment —
`gen_list` maps the file name `<generation>.log`, for any `u64` generation,
to that generation — and a file name contributing no generation leaves
`gen_list` unchanged; but acceptance is NOT exactly the form
`<generation>.log`: `trim_end_matches(".log")` strips every trailing `.log`,
so a name such as `1.log.log` is also accepted (see the counterexample),
refuting the claimed "exactly". -/
theorem claim_C9 (g : Nat) (h : g < 2 ^ 64) (name : String) (names : List String)
    (hname : genOfName name.data = none) :
    genOfName (natRepr g ++ '.' :: 'l' :: 'o' :: 'g' :: []) = some g ∧
    gen_list (name :: names) = gen_list names := by
  refine ⟨genOfName_canonical h, ?_⟩
  simp [gen_list, List.filterMap_cons, hname]

theorem claim_C9_witness :
    (17 : Nat) < 2 ^ 64 ∧ genOfName ("a7.log").data = none ∧
    (genOfName (natRepr 17 ++ '.' :: 'l' :: 'o' :: 'g' :: []) = some 17 ∧
      gen_list ["a7.log", "3.log"] = gen_list ["3.log"]) :=
  ⟨by decide, rfl, claim_C9 17 (by decide) "a7.log" ["3.log"] rfl⟩

theorem claim_C9_counterexample :
    genOfName ("1.log.log").data = some 1 ∧
    rustParseU64 ("1.log").data = none ∧
    decide (("1.log.log").data = natRepr 1 ++ '.' :: 'l' :: 'o' :: 'g' :: []) = false :=
  ⟨rfl, rfl, rfl⟩

/-- C10: a successful `get` leaves the store's logical state intact — the
index, the directory, the active generation and the write cursor of the
returned state equal those before the call (only a cached handle's seek
position moves), and every subsequent `get` observes the same result. -/
theorem claim_C10 (st : KvStore) (key : String) (a : Option String) (st' : KvStore)
    (h : get st key = .ok a st') :
    st'.index = st.index ∧ st'.gen = st.gen ∧ st'.cursor = st.cursor ∧
    st'.files = st.files ∧ ∀ k, (get st' k).val = (get st k).val := by
  simp only [get] at h
  split at h
  · injection h with ha hst
    subst hst
    exact ⟨rfl, rfl, rfl, rfl, fun k => rfl⟩
  · rename_i m hidx
    split at h
    · exact absurd h (by simp)
    · rename_i p hrd
      split at h
      · exact absurd h (by simp)
      · rename_i k0 v0 hdec
        injection h with ha hst
        subst hst
        have hrd2 : ∀ g, (alookup (ainsert st.readers m.gen
            (m.pos + (readLine (fileContent st m.gen) m.pos).length)) g).isSome ↔
            (alookup st.readers g).isSome := by
          intro g
          rw [alookup_ainsert_isSome]
          constructor
          · rintro (rfl | hg)
            · rw [hrd]
              rfl
            · exact hg
          · exact Or.inr
        refine ⟨rfl, rfl, rfl, rfl, fun k => get_val_ext ?_ ?_ ?_ k⟩
        · rfl
        · rfl
        · exact hrd2
      · exact absurd h (by simp)

/-- A one-key store for the C10 witness. -/
def c10St : KvStore :=
  match runOps freshStore [Op.set "k" "v"] with
  | .ok _ s => s
  | _ => freshStore

/-- The state `get c10St "k"` returns. -/
def c10St2 : KvStore :=
  match get c10St "k" with
  | .ok _ s => s
  | _ => freshStore

theorem claim_C10_witness :
    get c10St "k" = .ok (some "v") c10St2 ∧
    (c10St2.index = c10St.index ∧ c10St2.gen = c10St.gen ∧
      c10St2.cursor = c10St.cursor ∧ c10St2.files = c10St.files ∧
      ∀ k, (get c10St2 k).val = (get c10St k).val) :=
  ⟨rfl, claim_C10 c10St "k" (some "v") c10St2 rfl⟩

end Kvs
